import Mathlib

/-!
# Verification of `sparse_least_squares` (sparse left-looking LU over CSC)

Shallow embedding of the library's data model and operations:

* `SparsityPattern` with `major_offsets` / `minor_indices` / `minor_dim`
  becomes a structure over `List ℕ`.
* The scalar `F` (an IEEE-754 float, `f32` or `f64`) is modelled as `ℚ`:
  arithmetic is exact, `abs` is `|·|`, every value is finite
  (so `is_finite` assertions are identically true in the model).
* Slice indexing that the source guarantees in range is modelled with
  `getD` defaults; out-of-range panics that a claim's preconditions rule
  out are carried as hypotheses of the theorems.
* Fallible paths (`Result`, `assert!`, index panics) are modelled with
  `Except` and explicit error values.
* The recursive graph search of `sparse_lower_triangular_solve` and the
  stack loop of `sparse_lower_triangular_solve_bool` are modelled with an
  explicit fuel argument that strictly dominates the length of any
  execution (the source recursion terminates because the visited set
  grows; fuel `majorDim + 1` per root is shown sufficient in the proofs).
-/

deriving instance DecidableEq for Except

/-- Scalar type of the library (`pub type F = f32` / `f64`), modelled exactly. -/
abbrev F := ℚ

/-- `builder.rs`: `SparsityPattern { major_offsets, minor_indices, minor_dim }`. -/
structure SparsityPattern where
  majorOffsets : List ℕ
  minorIndices : List ℕ
  minorDim : ℕ
  deriving Repr, DecidableEq

namespace SparsityPattern

/-- `major_dim(&self) = major_offsets.len() - 1`. -/
def majorDim (sp : SparsityPattern) : ℕ := sp.majorOffsets.length - 1

/-- Helper for reading `major_offsets[i]` (in-range in every modelled use). -/
def off (sp : SparsityPattern) (i : ℕ) : ℕ := sp.majorOffsets.getD i 0

/-- `lane(i) = &minor_indices[major_offsets[i]..major_offsets[i+1]]`. -/
def lane (sp : SparsityPattern) (i : ℕ) : List ℕ :=
  ((sp.minorIndices.drop (sp.off i)).take (sp.off (i + 1) - sp.off i))

/-- `nnz() = minor_indices.len()`. -/
def nnz (sp : SparsityPattern) : ℕ := sp.minorIndices.length

/-- `entries()` helper: walk consecutive offset pairs, emitting
`(major, minor)` pairs of each lane in storage order. -/
def entriesAux : ℕ → List ℕ → List ℕ → List (ℕ × ℕ)
  | i, s :: rest, m =>
      match rest with
      | e :: _ => ((m.drop s).take (e - s)).map (fun x => (i, x)) ++ entriesAux (i + 1) rest m
      | [] => []
  | _, [], _ => []

/-- `entries()`: `(major, minor)` pairs in storage order. -/
def entries (sp : SparsityPattern) : List (ℕ × ℕ) :=
  entriesAux 0 sp.majorOffsets sp.minorIndices

/-- Inner recursion `reach` of `sparse_lower_triangular_solve`
(`builder.rs` lines 60-75): if `j` was already traversed stop, otherwise
push `j` and recurse into every `i ∈ lane(j)` with `i ≥ j`.  `fuel`
bounds the recursion depth; every modelled use supplies enough fuel. -/
def reach (sp : SparsityPattern) : ℕ → ℕ → List ℕ → List ℕ
  | 0, _, out => out
  | fuel + 1, j, out =>
      if j ∈ out then out
      else (sp.lane j).foldl
        (fun acc i => if i < j then acc else reach sp fuel i acc) (out ++ [j])

/-- `sparse_lower_triangular_solve(b, out)`: clears `out` and runs `reach`
from every start index in `b`. -/
def sparseLowerTriangularSolve (sp : SparsityPattern) (b : List ℕ) : List ℕ :=
  b.foldl (fun out i => reach sp (sp.majorDim + 1) i out) []

/-- One round of the `while let Some(j) = stack.pop()` loop of
`sparse_lower_triangular_solve_bool` (`builder.rs` lines 99-112).
State is `(out, stack)`; the returned `Bool` is `true` when the source
executes its early `return` (on popping an already-marked index), which
aborts the whole function.  The stack is a cons-list with its head as the
top.  On marking `j`, the source pushes `j` once per lane entry `i ≥ j`. -/
def boolLoop (sp : SparsityPattern) : ℕ → List Bool → List ℕ → (List Bool × List ℕ × Bool)
  | 0, out, stack => (out, stack, false)
  | fuel + 1, out, stack =>
      match stack with
      | [] => (out, [], false)
      | j :: rest =>
          if out.getD j false then (out, rest, true)
          else
            boolLoop sp fuel (out.set j true)
              ((sp.lane j).foldl (fun st i => if i < j then st else j :: st) rest)

/-- Fuel that dominates any run of `boolLoop`: each iteration pops one
element, and pushes happen only when marking a fresh index. -/
def boolFuel (sp : SparsityPattern) (out : List Bool) (stack : List ℕ) : ℕ :=
  stack.length + out.length * (sp.minorIndices.length + 1) + 1

/-- `sparse_lower_triangular_solve_bool(b, out, stack)`: fills `out` with
`false`, then for each root pushes it and runs the stack loop; the early
`return` aborts the remaining roots as well.  Returns the final
`(out, stack)` pair (the stack is owned by the caller and persists). -/
def sparseLowerTriangularSolveBool (sp : SparsityPattern) (b : List ℕ)
    (out0 : List Bool) (stack0 : List ℕ) : List Bool × List ℕ :=
  let start : List Bool × List ℕ × Bool := (out0.map (fun _ => false), stack0, false)
  let fin := b.foldl
    (fun st i =>
      if st.2.2 then st
      else boolLoop sp (boolFuel sp st.1 (i :: st.2.1)) st.1 (i :: st.2.1)) start
  (fin.1, fin.2.1)

end SparsityPattern

/-- `BuilderInsertError` (plus `panic`, modelling the aborts that the
source expresses as `assert!`/out-of-bounds panics rather than `Err`). -/
inductive BuilderInsertError where
  | majorTooLow : ℕ → BuilderInsertError
  | minorTooLow : ℕ → ℕ → BuilderInsertError
  deriving Repr, DecidableEq

/-- `SparsityPatternBuilder { buf, major_dim }`. -/
structure SparsityPatternBuilder where
  buf : SparsityPattern
  majorDim : ℕ
  deriving Repr, DecidableEq

namespace SparsityPatternBuilder

/-- `SparsityPatternBuilder::new`. -/
def new (majorDim minorDim : ℕ) : SparsityPatternBuilder :=
  { buf := { majorOffsets := [0], minorIndices := [], minorDim := minorDim }
    majorDim := majorDim }

/-- `num_entries`. -/
def numEntries (b : SparsityPatternBuilder) : ℕ := b.buf.minorIndices.length

/-- `SparsityPatternBuilder::insert(maj, min)` (`builder.rs` 177-204).
The out-of-range `assert!`s are preconditions of the theorems; the two
`Err` returns are modelled exactly. -/
def insert (b : SparsityPatternBuilder) (maj mn : ℕ) :
    Except BuilderInsertError SparsityPatternBuilder :=
  let curr := b.buf.majorDim
  if maj < curr then .error (.majorTooLow curr)
  else if maj = curr ∧ b.buf.majorOffsets.getLastD 0 < b.buf.minorIndices.length ∧
      b.buf.minorIndices ≠ [] ∧ mn ≤ b.buf.minorIndices.getLastD 0 then
    .error (.minorTooLow mn (b.buf.minorIndices.getLastD 0))
  else
    .ok { b with buf :=
      { b.buf with
        majorOffsets :=
          b.buf.majorOffsets ++ List.replicate (maj - curr) b.buf.minorIndices.length
        minorIndices := b.buf.minorIndices ++ [mn] } }

/-- `build()`: `major_offsets.resize(major_dim + 1, nnz)` (Rust `resize`
extends with the fill value or truncates), then return the pattern. -/
def build (b : SparsityPatternBuilder) : SparsityPattern :=
  { b.buf with majorOffsets :=
      (b.buf.majorOffsets ++
        List.replicate (b.majorDim + 1 - b.buf.majorOffsets.length)
          b.buf.minorIndices.length).take (b.majorDim + 1) }

/-- `revert_to_major(maj)` (`builder.rs` 230-239), including the source's
`truncate(last + 1)` bound on the minor-index array (one entry more than
the boundary `last = major_offsets[maj + 1]`). -/
def revertToMajor (b : SparsityPatternBuilder) (maj : ℕ) :
    Bool × SparsityPatternBuilder :=
  if b.buf.majorOffsets.length + 1 ≤ maj then (false, b)
  else
    let last := b.buf.majorOffsets.getD (maj + 1) 0
    (true,
      { b with buf :=
        { b.buf with
          majorOffsets := b.buf.majorOffsets.take (maj + 1)
          minorIndices := b.buf.minorIndices.take (last + 1) } })

/-- `SparsityPatternBuilder::from`. -/
def fromPattern (sp : SparsityPattern) : SparsityPatternBuilder :=
  { majorDim := sp.majorDim, buf := sp }

end SparsityPatternBuilder

/-- Insert a whole sequence of `(major, minor)` pairs, stopping at the
first error (each Rust call site checks every `Result`). -/
def SparsityPatternBuilder.insertAll (b : SparsityPatternBuilder)
    (l : List (ℕ × ℕ)) : Except BuilderInsertError SparsityPatternBuilder :=
  l.foldlM (fun b p => b.insert p.1 p.2) b

/-- Strict lexicographic order on `(major, minor)` keys — the iteration
order of a `BTreeMap<[usize; 2], T>` and the sort order of
`from_triplets`. -/
def keyLt (a b : ℕ × ℕ) : Prop := a.1 < b.1 ∨ (a.1 = b.1 ∧ a.2 < b.2)

instance : DecidableRel keyLt := fun a b => by unfold keyLt; infer_instance

/-- `keyLt`-chain condition relative to an optional previously accepted
key. -/
def chainFrom (lk : Option (ℕ × ℕ)) (ks : List (ℕ × ℕ)) : Prop :=
  match lk with
  | none => List.Chain' keyLt ks
  | some k => List.Chain' keyLt (k :: ks)

/-- Builder-state invariant threaded through the ordered-insertion
proofs: the offsets are nonempty and bounded by `nnz`, and the shape
matches the last accepted `(major, minor)` key (`none` = fresh). -/
def BuilderInv (b : SparsityPatternBuilder) (lk : Option (ℕ × ℕ)) : Prop :=
  b.buf.majorOffsets ≠ [] ∧
  (∀ x ∈ b.buf.majorOffsets, x ≤ b.buf.minorIndices.length) ∧
  (match lk with
   | none => b.buf.majorOffsets = [0] ∧ b.buf.minorIndices = []
   | some k =>
      b.buf.majorOffsets.length = k.1 + 1 ∧
      b.buf.minorIndices ≠ [] ∧
      b.buf.minorIndices.getLastD 0 = k.2 ∧
      b.buf.majorOffsets.getLastD 0 < b.buf.minorIndices.length)

/-- Offsets-shape invariant used by the `entries` characterisation:
offsets nonempty, bounded by `nnz`, and strictly fewer than
`major_dim + 1` of them (some major is still open). -/
def EntriesInv (b : SparsityPatternBuilder) : Prop :=
  b.buf.majorOffsets ≠ [] ∧
  (∀ x ∈ b.buf.majorOffsets, x ≤ b.buf.minorIndices.length) ∧
  b.buf.majorOffsets.length ≤ b.majorDim

/-- `cs.rs`: `CsMatrix<T>` with `T = F`. -/
structure CsMatrix where
  pattern : SparsityPattern
  values : List F
  deriving Repr, DecidableEq

namespace CsMatrix

/-- `lane(i)` as `(minor, value)` pairs (the source returns the two
parallel slices; `lane_iter` zips them exactly like this). -/
def lanePairs (m : CsMatrix) (i : ℕ) : List (ℕ × F) :=
  (((m.pattern.minorIndices.zip m.values).drop (m.pattern.off i)).take
    (m.pattern.off (i + 1) - m.pattern.off i))

/-- `swap_minor`'s relabelling step (`cs.rs` 27-33): occurrences of `a`
become `b` and vice versa. -/
def relabel (a b x : ℕ) : ℕ := if x = a then b else if x = b then a else x

/-- Forward bubble pass, carrying the element currently at the left slot
of the compared pair: at each comparison the smaller of the carried `x`
and the head `y` is emitted and the larger is carried on. -/
def fwdGo (x : ℕ × F) : List (ℕ × F) → List (ℕ × F)
  | [] => [x]
  | y :: rest => if y.1 < x.1 then y :: fwdGo x rest else x :: fwdGo y rest

/-- `swap_minor`'s forward adjacent-swap pass over one lane (`cs.rs`
38-44): a single left-to-right bubble pass on `(minor, value)` pairs. -/
def fwdPass : List (ℕ × F) → List (ℕ × F)
  | [] => []
  | x :: rest => fwdGo x rest

/-- `swap_minor`'s reverse adjacent-swap pass over one lane (`cs.rs`
46-52): processes adjacent pairs right-to-left; a displaced small element
is carried leftwards. -/
def revPass : List (ℕ × F) → List (ℕ × F)
  | [] => []
  | c :: rest =>
      match revPass rest with
      | [] => [c]
      | y :: r => if y.1 < c.1 then y :: c :: r else c :: y :: r

/-- The per-lane re-sort of `swap_minor`: one forward then one reverse pass. -/
def passSegment (l : List (ℕ × F)) : List (ℕ × F) := revPass (fwdPass l)

/-- Splice: replace the segment `[s, e)` of `l` by its re-sorted form.
The source performs the swaps in place inside `[s, e)`. -/
def splice (l : List (ℕ × F)) (s e : ℕ) : List (ℕ × F) :=
  l.take s ++ passSegment ((l.drop s).take (e - s)) ++ l.drop e

/-- `swap_minor`'s per-lane loop: walk consecutive offset pairs, re-sorting
each lane `[s, e)` (exactly the `for i in 0..major_dim` loop). -/
def resortLanes : List ℕ → List (ℕ × F) → List (ℕ × F)
  | s :: rest, l =>
      match rest with
      | e :: _ => resortLanes rest (splice l s e)
      | [] => l
  | [], l => l

/-- `swap_minor(a, b)` (`cs.rs` 26-54): relabel every minor index, then
restore per-lane sorted order with one forward and one reverse bubble
pass per lane, swapping the parallel values along. -/
def swapMinor (m : CsMatrix) (a b : ℕ) : CsMatrix :=
  let relabeled := (m.pattern.minorIndices.map (CsMatrix.relabel a b)).zip m.values
  let fixed := resortLanes m.pattern.majorOffsets relabeled
  { pattern := { m.pattern with minorIndices := fixed.map Prod.fst }
    values := fixed.map Prod.snd }

end CsMatrix

section CsMatrixBasics

/-- `Csc<T>` is a newtype over `CsMatrix<T>` with major = column,
minor = row; the model identifies them. -/
abbrev Csc := CsMatrix

/-- `ncols() = pattern.major_dim()`. -/
def Csc.ncols (m : Csc) : ℕ := m.pattern.majorDim

/-- `nrows() = pattern.minor_dim`. -/
def Csc.nrows (m : Csc) : ℕ := m.pattern.minorDim

/-- `swap_rows` delegates to `swap_minor`. -/
def Csc.swapRows (m : Csc) (a b : ℕ) : Csc := m.swapMinor a b

end CsMatrixBasics

/-- `CsBuilder<T>` with `T = F`. -/
structure CsBuilder where
  sparsityBuilder : SparsityPatternBuilder
  values : List F
  deriving Repr, DecidableEq

namespace CsBuilder

/-- `CsBuilder::new`. -/
def new (majorDim minorDim : ℕ) : CsBuilder :=
  { sparsityBuilder := SparsityPatternBuilder.new majorDim minorDim, values := [] }

/-- `CsBuilder::from_mat`. -/
def fromMat (m : CsMatrix) : CsBuilder :=
  { sparsityBuilder := SparsityPatternBuilder.fromPattern m.pattern, values := m.values }

/-- `CsBuilder::insert`: insert into the pattern, then push the value
(the value is pushed only on success, mirroring the `?`). -/
def insert (b : CsBuilder) (maj mn : ℕ) (v : F) : Except BuilderInsertError CsBuilder :=
  match b.sparsityBuilder.insert maj mn with
  | .error e => .error e
  | .ok sb => .ok { sparsityBuilder := sb, values := b.values ++ [v] }

/-- `CsBuilder::revert_to_major`: revert the pattern, then truncate the
values to `num_entries()`. -/
def revertToMajor (b : CsBuilder) (maj : ℕ) : Bool × CsBuilder :=
  match b.sparsityBuilder.revertToMajor maj with
  | (false, _) => (false, b)
  | (true, sb) => (true, { sparsityBuilder := sb, values := b.values.take sb.numEntries })

/-- `CsBuilder::build`. -/
def build (b : CsBuilder) : CsMatrix :=
  { pattern := b.sparsityBuilder.build, values := b.values }

end CsBuilder

namespace CscBuilder

/-- `CscBuilder::new(rows, cols) = CsBuilder::new(cols, rows)`. -/
def new (rows cols : ℕ) : CsBuilder := CsBuilder.new cols rows

/-- `CscBuilder::insert(row, col, val) = CsBuilder::insert(col, row, val)`. -/
def insert (b : CsBuilder) (row col : ℕ) (v : F) : Except BuilderInsertError CsBuilder :=
  b.insert col row v

end CscBuilder

namespace Csc

/-- `Csc::from_triplets(rows, cols, t)` (`csc.rs` 38-52): sort the buffer
in place by the `[x, y]` key (unstable; keys are distinct in every use
covered by the claims, so the sort result is the unique sorted order),
then insert each `([x, y], v)` as `builder.insert(y, x, v)` — i.e. with
major (column) `x` and minor (row) `y`. -/
def fromTriplets (rows cols : ℕ) (t : List ((ℕ × ℕ) × F)) :
    Except BuilderInsertError CsMatrix :=
  let sorted := t.mergeSort (fun p q => p.1.1 < q.1.1 ∨ (p.1.1 = q.1.1 ∧ p.1.2 ≤ q.1.2))
  (sorted.foldlM (fun b r => CscBuilder.insert b r.1.2 r.1.1 r.2)
      (CscBuilder.new rows cols)).map CsBuilder.build

/-- `Csc::from_btreemap(rows, cols, map)` (`csc.rs` 54-67): iterate the
map in its (strictly ascending) key order, inserting each `([x, y], v)`
as `builder.insert(y, x, v)`.  The model takes the iteration sequence as
a list; the B-tree order premise is a hypothesis of the theorems. -/
def fromBtreemap (rows cols : ℕ) (entries : List ((ℕ × ℕ) × F)) :
    Except BuilderInsertError CsMatrix :=
  (entries.foldlM (fun b r => CscBuilder.insert b r.1.2 r.1.1 r.2)
      (CscBuilder.new rows cols)).map CsBuilder.build

/-- `dense_lower_triangular_solve_arr` body for one column index `i`
(`csc.rs` 97-117, at vector width `N = 1` — the inner `for d in 0..N`
loop applies the identical scalar update to each of the `N` independent
components).  `out` is the state; the fresh column iterator is advanced
past rows `< i`, the diagonal divides when present and `!unit_diagonal`,
then every stored `(ri, v)` with `ri > i` receives the subtraction. -/
def denseLowerStep (m : Csc) (unitDiagonal : Bool) (out : List F) (i : ℕ) : List F :=
  let col := m.lanePairs i
  let afterSkip := col.dropWhile (fun p => p.1 < i)
  let out1 :=
    match afterSkip.head? with
    | some p => if p.1 = i ∧ unitDiagonal = false then out.set i (out.getD i 0 / p.2) else out
    | none => out
  let mul := out1.getD i 0
  col.foldl
    (fun acc p => if i < p.1 then acc.set p.1 (acc.getD p.1 0 - p.2 * mul) else acc) out1

/-- `dense_lower_triangular_solve_arr(b, out, unit_diagonal)`: copies `b`
into `out`, then runs the forward-substitution loop for `i in 0..n`. -/
def denseLowerTriangularSolve (m : Csc) (b : List F) (unitDiagonal : Bool) : List F :=
  (List.range b.length).foldl (denseLowerStep m unitDiagonal) b

/-- `dense_upper_triangular_solve_arr` body for one column index `i`
(`csc.rs` 143-162): the reversed column iterator is advanced past rows
`> i`, the diagonal divides when present, and the remaining iterator
(continuing after the diagonal) performs the subtractions on rows `< i`. -/
def denseUpperStep (m : Csc) (out : List F) (i : ℕ) : List F :=
  let col := (m.lanePairs i).reverse
  let afterSkip := col.dropWhile (fun p => i < p.1)
  let (out1, rest) :=
    match afterSkip.head? with
    | some p => if p.1 = i then (out.set i (out.getD i 0 / p.2), afterSkip.tail) else (out, afterSkip)
    | none => (out, afterSkip)
  let mul := out1.getD i 0
  rest.foldl
    (fun acc p => if p.1 < i then acc.set p.1 (acc.getD p.1 0 - p.2 * mul) else acc) out1

/-- `dense_upper_triangular_solve_arr(b, out)`: copies `b` into `out`,
then runs the back-substitution loop for `i in (0..n).rev()`. -/
def denseUpperTriangularSolve (m : Csc) (b : List F) : List F :=
  (List.range b.length).reverse.foldl (denseUpperStep m) b

/-- `sparse_lower_triangular_solve_sorted` (`csc.rs` 173-231): zero the
output, scatter `b` into the positions of `out_sparsity_pattern` matching
each `b_idx`, then run the substitution sweep; the column iterator of the
current row is threaded (peek/advance) through the inner loop. -/
def sparseLowerTriangularSolveSorted (m : Csc) (bIdxs : List ℕ) (bVals : List F)
    (outPat : List ℕ) (assumeUnit : Bool) : List F :=
  let out0 : List F := List.replicate outPat.length 0
  let out1 := (bIdxs.zip bVals).foldl
    (fun out r =>
      match outPat.findIdx? (fun p => p = r.1) with
      | none => out
      | some pos => out.set pos r.2) out0
  outPat.enum.foldl
    (fun out irow =>
      let (i, row) := irow
      let col := m.lanePairs row
      let (out2, col1) :=
        if assumeUnit then (out, col)
        else
          let colA := col.dropWhile (fun p => p.1 < row)
          match colA.head? with
          | some p =>
              if p.1 = row then (out.set i (out.getD i 0 / p.2), colA.tail) else (out, colA)
          | none => (out, colA)
      let mul := out2.getD i 0
      (((outPat.enum.drop (i + 1)).foldl
        (fun (inner : List F × List (ℕ × F)) nirow =>
          let (ni, nrow) := nirow
          let rem := inner.2.dropWhile (fun p => p.1 < nrow)
          match rem.head? with
          | some p =>
              if p.1 = nrow then (inner.1.set ni (inner.1.getD ni 0 - p.2 * mul), rem)
              else (inner.1, rem)
          | none => (inner.1, rem)) (out2, col1))).1) out1

end Csc

/-- `<[ℕ]>::is_sorted` carry helper: all of `l` is `≥ x` and ascending. -/
def isSortedFrom (x : ℕ) : List ℕ → Bool
  | [] => true
  | y :: rest => decide (x ≤ y) && isSortedFrom y rest

/-- `<[ℕ]>::is_sorted()` (non-strict ascending order), executable. -/
def isSortedAsc : List ℕ → Bool
  | [] => true
  | x :: rest => isSortedFrom x rest

/-- `Vec::swap(i, j)` on a list of indices (used for `pivot.swap`). -/
def listSwap (l : List ℕ) (i j : ℕ) : List ℕ :=
  (l.set i (l.getD j 0)).set j (l.getD i 0)

/-- Abort conditions of `LeftLookingLUFactorization::new`:
`rankDeficient` models `assert_ne!(ukk, 0., "rank-deficient matrix")`;
`panic` models every other abort (out-of-bounds indexing of `val_buf`,
the `assert!(pat_buf.is_sorted())`).  The `assert!(val.is_finite())`
checks are identically true in the exact model and are not represented. -/
inductive LuErr where
  | rankDeficient : LuErr
  | panic : LuErr
  deriving Repr, DecidableEq

/-- Loop state of `LeftLookingLUFactorization::new`: the CSC builder for
`l_u`, the working copy of `a` (mutated by row swaps), the pivot vector,
and the work stack (allocated once and reused across columns without
clearing).  `val_buf`, `pat_buf` and `pat_contains` are overwritten from
scratch each column (`resize`+`fill`, `clear`, `fill(false)`), so they
carry no state between columns beyond lengths fixed by `n`. -/
structure LuState where
  builder : CsBuilder
  a : Csc
  pivot : List ℕ
  stack : List ℕ
  deriving Repr, DecidableEq

/-- Rust `Iterator::max_by` over `(index, value)` pairs with comparator
`a.abs().partial_cmp(&b.abs())`: fold keeping the accumulator only when
its absolute value is strictly greater, so ties go to the later element. -/
def maxByAbs (l : List (ℕ × F)) : Option (ℕ × F) :=
  l.foldl
    (fun acc x =>
      match acc with
      | none => some x
      | some a => some (if |x.2| < |a.2| then a else x)) none

/-- Pivot selection of `new` (`sparse_lu.rs` 125-131):
`val_buf.iter().enumerate().filter(pat_buf[i] >= ci).max_by(|a|, |b|)
.map(.0).unwrap_or(ci)`. -/
def selectPivot (vals : List F) (pat : List ℕ) (ci : ℕ) : ℕ :=
  match maxByAbs (vals.enum.filter (fun p => ci ≤ pat.getD p.1 0)) with
  | some p => p.1
  | none => ci

/-- The symbolic + numeric phase of one column of `new` (`sparse_lu.rs`
94-131): build the current snapshot, read column `ci` of the working `a`,
run the boolean reachability, collect `pat_buf`, solve the sparse lower
triangular system, and select the pivot position.  Returns
`(curr_mat, pat_buf, val_buf, stack_after, best_i)`. -/
def luColumn (n : ℕ) (st : LuState) (ci : ℕ) :
    Csc × List ℕ × List F × List ℕ × ℕ :=
  let currMat := st.builder.build
  let colPairs := st.a.lanePairs ci
  let colRis := colPairs.map Prod.fst
  let colVals := colPairs.map Prod.snd
  let (contains, stack1) :=
    currMat.pattern.sparseLowerTriangularSolveBool colRis
      (List.replicate n false) st.stack
  let patBuf := contains.enum.filterMap (fun p => if p.2 then some p.1 else none)
  let valBuf := Csc.sparseLowerTriangularSolveSorted currMat colRis colVals patBuf true
  let bestI := selectPivot valBuf patBuf ci
  (currMat, patBuf, valBuf, stack1, bestI)

/-- The pivot value `ukk = val_buf[best_i]` chosen at column `ci`
(`none` when the source would panic on an out-of-bounds `best_i`). -/
def pivotValue (n : ℕ) (st : LuState) (ci : ℕ) : Option F :=
  let c := luColumn n st ci
  c.2.2.1.get? c.2.2.2.2

/-- One iteration of the `for ci in 0..n` loop of `new` (`sparse_lu.rs`
93-185): select and check the pivot, swap-relabel `pat_buf`/`val_buf` and
swap rows when pivoting, revert the builder to column `ci`, and emit the
column (values strictly below the diagonal divided by `ukk`).  The
`debug_assert`s are compiled out (release semantics); the ignored
`Result` of `insert` leaves the builder unchanged on error. -/
def luStep (n : ℕ) (st : LuState) (ci : ℕ) : Except LuErr LuState :=
  let c := luColumn n st ci
  let currMat := c.1
  let patBuf := c.2.1
  let valBuf := c.2.2.1
  let stack1 := c.2.2.2.1
  let bestI := c.2.2.2.2
  match pivotValue n st ci with
  | none => .error .panic
  | some ukk =>
    if ukk = 0 then .error .rankDeficient
    else
      let bestRow := patBuf.getD bestI 0
      let (patBuf2, valBuf2, pivot2, currMat2, a2, okSorted) :=
        if bestRow = ci then (patBuf, valBuf, st.pivot, currMat, st.a, true)
        else
          let passed := CsMatrix.passSegment
            ((patBuf.map (CsMatrix.relabel ci bestRow)).zip valBuf)
          (passed.map Prod.fst, passed.map Prod.snd,
            listSwap st.pivot ci bestRow,
            Csc.swapRows currMat ci bestRow, Csc.swapRows st.a ci bestRow,
            isSortedAsc (passed.map Prod.fst))
      if okSorted = false then .error .panic
      else
        let builder1 := ((CsBuilder.fromMat currMat2).revertToMajor ci).2
        let builder2 := (patBuf2.zip valBuf2).foldl
          (fun bld rv =>
            let v := if rv.1 ≤ ci then rv.2 else rv.2 / ukk
            match CscBuilder.insert bld rv.1 ci v with
            | .ok b' => b'
            | .error _ => bld) builder1
        .ok { builder := builder2, a := a2, pivot := pivot2, stack := stack1 }

/-- Initial state of `new`: empty `CscBuilder(n, n)`, working clone of
`a`, identity pivot, empty stack. -/
def luInit (a : Csc) (n : ℕ) : LuState :=
  { builder := CscBuilder.new n n, a := a, pivot := List.range n, stack := [] }

/-- The first `k` iterations of the column loop of `new`. -/
def luFold (a : Csc) : ℕ → Except LuErr LuState
  | 0 => .ok (luInit a a.nrows)
  | k + 1 => (luFold a k).bind (fun st => luStep a.nrows st k)

/-- `LeftLookingLUFactorization { l_u, pivot }`. -/
structure LeftLookingLUFactorization where
  l_u : Csc
  pivot : List ℕ
  deriving Repr, DecidableEq

namespace LeftLookingLUFactorization

/-- `solve` / `solve_arr` (`sparse_lu.rs` 59-70): copy `b` into `buf`,
gather `b[i] = buf[pivot[i]]`, forward-substitute (`unit_diagonal =
true`) writing `buf`, back-substitute writing `b`; returns the final
`(b, buf)` pair. -/
def solve (f : LeftLookingLUFactorization) (b _buf : List F) : List F × List F :=
  let n := b.length
  let buf1 := b
  let b1 := (List.range n).map (fun i => buf1.getD (f.pivot.getD i 0) 0)
  let buf2 := Csc.denseLowerTriangularSolve f.l_u b1 true
  let b2 := Csc.denseUpperTriangularSolve f.l_u buf2
  (b2, buf2)

/-- `LeftLookingLUFactorization::new(a)` (`sparse_lu.rs` 74-190): assert
squareness, run the column loop, then build `l_u`.  The final
`assert!(all values finite)` is identically true in the exact model. -/
def new (a : Csc) : Except LuErr LeftLookingLUFactorization :=
  if a.nrows ≠ a.ncols then .error .panic
  else (luFold a a.nrows).map
    (fun st => { l_u := st.builder.build, pivot := st.pivot })

end LeftLookingLUFactorization

/-- The lower-triangular dependency graph of a pattern (spec §4.1): an
edge `j → i` iff `i ∈ lane(j)` and `i ≥ j`. -/
def SparsityPattern.Edge (sp : SparsityPattern) (j i : ℕ) : Prop :=
  i ∈ sp.lane j ∧ ¬ i < j

/-- Membership in the reachability closure of a start set `b` (spec §4.1:
"the closure of `b_idxs` under outgoing edges"). -/
def SparsityPattern.ReachableFrom (sp : SparsityPattern) (b : List ℕ) (x : ℕ) : Prop :=
  ∃ r ∈ b, Relation.ReflTransGen sp.Edge r x

/-- Concrete 2×2 matrix `[[1, 5], [1, 0]]` in CSC form (column 0 holds
rows 0,1 with values 1,1; column 1 holds row 0 with value 5).  Its first
column produces a tie `|1| = |1|` between rows 0 and 1 during pivot
selection. -/
def exampleTie : Csc := ⟨⟨[0, 2, 3], [0, 1, 0], 2⟩, [1, 1, 5]⟩

/- ------------------------------------------------------------------ -/
/- Theorems.                                                           -/
/- ------------------------------------------------------------------ -/

section ConcreteEvaluation

/- Batteries marks the `Rat` field operations `@[irreducible]`; concrete
runs of the model are evaluated by `decide`, which needs them to unfold. -/
attribute [local semireducible] Rat.mul Rat.inv Rat.add Rat.sub

/-- C1: for a factorization with pivot vector of length `n` and slices
`b`, `buf` of length `n`, `solve` leaves in `b` exactly the three-step
composition: gather `b'[i] = b[pivot[i]]` (via `buf`), forward
substitution through the lower triangle with `unit_diagonal = true`, then
back substitution through the upper triangle. -/
theorem c1_solve_composition (f : LeftLookingLUFactorization) (b buf : List F) (n : ℕ)
    (hp : f.pivot.length = n) (hb : b.length = n) (hbuf : buf.length = n) :
    (f.solve b buf).1 =
      Csc.denseUpperTriangularSolve f.l_u
        (Csc.denseLowerTriangularSolve f.l_u
          ((List.range n).map (fun i => b.getD (f.pivot.getD i 0) 0)) true) := by
  subst hb
  rfl

/-- Witness for `c1_solve_composition` at a concrete factorization. -/
theorem c1_solve_composition_witness :
    (⟨⟨⟨[0, 1, 2], [0, 1], 2⟩, [2, 4]⟩, [1, 0]⟩ :
        LeftLookingLUFactorization).pivot.length = 2 ∧
      ([3, 8] : List F).length = 2 ∧ ([0, 0] : List F).length = 2 ∧
      ((⟨⟨⟨[0, 1, 2], [0, 1], 2⟩, [2, 4]⟩, [1, 0]⟩ :
          LeftLookingLUFactorization).solve [3, 8] [0, 0]).1 =
        Csc.denseUpperTriangularSolve ⟨⟨[0, 1, 2], [0, 1], 2⟩, [2, 4]⟩
          (Csc.denseLowerTriangularSolve ⟨⟨[0, 1, 2], [0, 1], 2⟩, [2, 4]⟩
            ((List.range 2).map (fun i => ([3, 8] : List F).getD
              (([1, 0] : List ℕ).getD i 0) 0)) true) :=
  ⟨rfl, rfl, rfl,
    c1_solve_composition ⟨⟨⟨[0, 1, 2], [0, 1], 2⟩, [2, 4]⟩, [1, 0]⟩ [3, 8] [0, 0] 2
      rfl rfl rfl⟩

/-- C4 (code defect): on the pattern with `lane(0) = [1]` (offsets
`[0,1,1]`, minors `[1]`) and start set `b = [0]`, with an all-`false`
buffer of length 2 and an empty stack, the stack-based variant marks only
index 0 (its revisit `return` fires after it pushes `j` instead of the
neighbour), while the recursive variant reaches `[0, 1]` — the two do not
compute the same set. -/
theorem c4_bool_divergence :
    (SparsityPattern.sparseLowerTriangularSolveBool ⟨[0, 1, 1], [1], 2⟩ [0]
        [false, false] []).1 = [true, false] ∧
      SparsityPattern.sparseLowerTriangularSolve ⟨[0, 1, 1], [1], 2⟩ [0] = [0, 1] ∧
      1 ∈ SparsityPattern.sparseLowerTriangularSolve ⟨[0, 1, 1], [1], 2⟩ [0] ∧
      (SparsityPattern.sparseLowerTriangularSolveBool ⟨[0, 1, 1], [1], 2⟩ [0]
        [false, false] []).1.getD 1 false = false := by
  refine ⟨rfl, rfl, ?_, rfl⟩
  decide

/-- C8 (code defect): for the builder over the pattern with offsets
`[0, 1, 2]` and minors `[0, 0]` (majors 0 and 1 each holding one entry),
`revert_to_major(0)` succeeds but retains `minor_indices = [0, 0]` — the
source truncates to `last + 1 = 2` entries, keeping the first entry of
major 1, instead of to `major_offsets[1] = 1` entries as claimed.  The
mirrored `CsBuilder::revert_to_major` truncates its values to
`num_entries()`, i.e. to the same length as the retained minors. -/
theorem c8_revert_keeps_extra :
    SparsityPatternBuilder.revertToMajor
        (SparsityPatternBuilder.fromPattern ⟨[0, 1, 2], [0, 0], 1⟩) 0 =
      (true, ⟨⟨[0], [0, 0], 1⟩, 2⟩) ∧
      (SparsityPatternBuilder.revertToMajor
        (SparsityPatternBuilder.fromPattern ⟨[0, 1, 2], [0, 0], 1⟩) 0).2.buf.minorIndices ≠
        ([0, 0] : List ℕ).take (([0, 1, 2] : List ℕ).getD 1 0) ∧
      (CsBuilder.revertToMajor
        ⟨SparsityPatternBuilder.fromPattern ⟨[0, 1, 2], [0, 0], 1⟩, [5, 7]⟩ 0).2.values.length =
      (CsBuilder.revertToMajor
        ⟨SparsityPatternBuilder.fromPattern ⟨[0, 1, 2], [0, 0], 1⟩, [5, 7]⟩
          0).2.sparsityBuilder.buf.minorIndices.length := by
  refine ⟨rfl, ?_, rfl⟩
  decide

/-- C2 (counterexample): in `new` on `exampleTie`, column 0 reaches the
pivot-selection state `pat_buf = [0, 1]`, `val_buf = [1, 1]` — a tie
`|1| = |1|` between candidate positions 0 and 1.  The source selects
position 1 (`max_by` keeps the *last* maximal element), the run completes
with `pivot = [1, 0]`, and the selected position is *not* the first
maximal candidate as the claim states (position 0 is an earlier candidate
of equal absolute value). -/
theorem c2_ties_cex :
    selectPivot [1, 1] [0, 1] 0 = 1 ∧
      (luColumn 2 (luInit exampleTie 2) 0).2.1 = [0, 1] ∧
      (luColumn 2 (luInit exampleTie 2) 0).2.2.1 = [1, 1] ∧
      LeftLookingLUFactorization.new exampleTie =
        .ok ⟨⟨⟨[0, 2, 3], [0, 1, 1], 2⟩, [1, 1, 5]⟩, [1, 0]⟩ ∧
      ¬ (∀ j < selectPivot [1, 1] [0, 1] 0,
          (0 : ℕ) ≤ ([0, 1] : List ℕ).getD j 0 →
            |([1, 1] : List F).getD j 0| <
              |([1, 1] : List F).getD (selectPivot [1, 1] [0, 1] 0) 0|) := by
  refine ⟨by decide, by decide, by decide, by decide, by decide⟩

end ConcreteEvaluation

/-- Fold step of `maxByAbs` over an appended element. -/
theorem maxByAbs_append_singleton (l : List (ℕ × F)) (x : ℕ × F) :
    maxByAbs (l ++ [x]) =
      match maxByAbs l with
      | none => some x
      | some a => some (if |x.2| < |a.2| then a else x) := by
  simp [maxByAbs, List.foldl_append]

/-- `max_by` keeps the last maximal element: the result splits the list
into a prefix of elements `≤` it and a suffix of elements strictly `<`. -/
theorem maxByAbs_decomp {l : List (ℕ × F)} (hl : l ≠ []) :
    ∃ l₁ p l₂, l = l₁ ++ p :: l₂ ∧ maxByAbs l = some p ∧
      (∀ q ∈ l₁, |q.2| ≤ |p.2|) ∧ (∀ q ∈ l₂, |q.2| < |p.2|) := by
  induction l using List.reverseRecOn with
  | nil => exact absurd rfl hl
  | append_singleton l x ih =>
    rcases eq_or_ne l [] with rfl | hne
    · exact ⟨[], x, [], by simp, by simp [maxByAbs], by simp, by simp⟩
    · obtain ⟨l₁, p, l₂, heq, hmax, h₁, h₂⟩ := ih hne
      rw [maxByAbs_append_singleton, hmax]
      by_cases hx : |x.2| < |p.2|
      · refine ⟨l₁, p, l₂ ++ [x], by simp [heq], by simp [hx], h₁, ?_⟩
        intro q hq
        rcases List.mem_append.mp hq with hq | hq
        · exact h₂ q hq
        · simpa [List.mem_singleton.mp hq] using hx
      · refine ⟨l, x, [], by simp, by simp [hx], ?_, by simp⟩
        intro q hq
        rw [heq] at hq
        rcases List.mem_append.mp hq with hq | hq
        · exact le_trans (h₁ q hq) (not_lt.mp hx)
        · rcases List.mem_cons.mp hq with rfl | hq
          · exact not_lt.mp hx
          · exact le_of_lt (lt_of_lt_of_le (h₂ q hq) (not_lt.mp hx))

/-- The indices of `enumFrom` are strictly increasing. -/
theorem pairwise_fst_lt_enumFrom {α : Type} (l : List α) (k : ℕ) :
    List.Pairwise (fun a b => a.1 < b.1) (l.enumFrom k) := by
  induction l generalizing k with
  | nil => simp
  | cons x xs ih =>
    refine List.Pairwise.cons (fun p hp => ?_) (ih (k + 1))
    exact lt_of_lt_of_le (Nat.lt_succ_self k) (List.mem_enumFrom hp).1

/-- C2 (amended): the pivot position selected by `new` at column `ci` is
the candidate (position with `pat_buf[k] ≥ ci`) of maximum absolute
value; when several candidates tie for the maximum, the *last* one (the
greatest position, hence the greatest row index in the sorted pattern) is
chosen — Rust's `max_by` keeps the later element on `Ordering::Equal`. -/
theorem c2_pivot_ties_last (vals : List F) (pat : List ℕ) (ci : ℕ)
    (h : vals.enum.filter (fun p => ci ≤ pat.getD p.1 0) ≠ []) :
    ∃ p ∈ vals.enum.filter (fun p => ci ≤ pat.getD p.1 0),
      selectPivot vals pat ci = p.1 ∧
      (∀ q ∈ vals.enum.filter (fun p => ci ≤ pat.getD p.1 0), |q.2| ≤ |p.2|) ∧
      (∀ q ∈ vals.enum.filter (fun p => ci ≤ pat.getD p.1 0),
        |q.2| = |p.2| → q.1 ≤ p.1) := by
  obtain ⟨l₁, p, l₂, heq, hmax, h₁, h₂⟩ := maxByAbs_decomp h
  have hpair : List.Pairwise (fun a b : ℕ × F => a.1 < b.1)
      (vals.enum.filter (fun p => ci ≤ pat.getD p.1 0)) :=
    List.Pairwise.filter _ (pairwise_fst_lt_enumFrom vals 0)
  refine ⟨p, by rw [heq]; simp, ?_, ?_, ?_⟩
  · simp only [selectPivot]
    rw [hmax]
  · intro q hq
    rw [heq] at hq
    rcases List.mem_append.mp hq with hq | hq
    · exact h₁ q hq
    · rcases List.mem_cons.mp hq with rfl | hq
      · exact le_refl _
      · exact le_of_lt (h₂ q hq)
  · intro q hq habs
    rw [heq] at hq hpair
    rcases List.mem_append.mp hq with hq | hq
    · exact le_of_lt ((List.pairwise_append.mp hpair).2.2 q hq p (List.mem_cons_self _ _))
    · rcases List.mem_cons.mp hq with rfl | hq
      · exact le_refl _
      · exact absurd habs (ne_of_lt (h₂ q hq))

/-- The `rank-deficient` abort of one column step fires exactly when the
chosen pivot value `ukk = val_buf[best_i]` is exactly zero. -/
theorem luStep_rankDeficient_iff (n : ℕ) (st : LuState) (ci : ℕ) :
    luStep n st ci = Except.error LuErr.rankDeficient ↔ pivotValue n st ci = some 0 := by
  unfold luStep
  cases hget : pivotValue n st ci with
  | none => simp
  | some u =>
    dsimp only
    by_cases hu : u = 0
    · subst hu
      simp
    · simp only [if_neg hu, Option.some.injEq]
      constructor
      · intro hcontra
        exfalso
        (repeat' split at hcontra) <;> simp_all
      · intro h
        exact absurd h hu

/-- Once the column loop fails, every longer prefix fails identically. -/
theorem luFold_error_mono (a : Csc) (e : LuErr) {m n : ℕ} (h : m ≤ n)
    (he : luFold a m = .error e) : luFold a n = .error e := by
  induction n with
  | zero =>
    interval_cases m
    exact he
  | succ n ih =>
    rcases eq_or_lt_of_le h with rfl | h'
    · exact he
    · have hn : luFold a n = .error e := ih (Nat.lt_succ_iff.mp h')
      show (luFold a n).bind (fun st => luStep a.nrows st n) = .error e
      rw [hn]
      rfl

/-- The column loop fails with `e` iff some column step fails with `e`
from the state reached by the preceding columns. -/
theorem luFold_eq_error_iff (a : Csc) (e : LuErr) (n : ℕ) :
    luFold a n = .error e ↔
      ∃ k st, k < n ∧ luFold a k = .ok st ∧ luStep a.nrows st k = .error e := by
  induction n with
  | zero => simp [luFold]
  | succ n ih =>
    cases h : luFold a n with
    | error e' =>
      have hbind : luFold a (n + 1) = .error e' := by
        show (luFold a n).bind (fun st => luStep a.nrows st n) = .error e'
        rw [h]
        rfl
      rw [hbind]
      constructor
      · intro he
        obtain rfl : e' = e := by simpa using he
        obtain ⟨k, st, hk, hok, hstep⟩ := ih.mp h
        exact ⟨k, st, Nat.lt_succ_of_lt hk, hok, hstep⟩
      · rintro ⟨k, st, hk, hok, hstep⟩
        rcases Nat.lt_succ_iff_lt_or_eq.mp hk with hk' | rfl
        · have := ih.mpr ⟨k, st, hk', hok, hstep⟩
          rw [h] at this
          exact this
        · rw [h] at hok
          exact absurd hok (by simp)
    | ok st =>
      have hbind : luFold a (n + 1) = luStep a.nrows st n := by
        show (luFold a n).bind (fun st => luStep a.nrows st n) = luStep a.nrows st n
        rw [h]
        rfl
      rw [hbind]
      constructor
      · intro he
        exact ⟨n, st, Nat.lt_succ_self n, h, he⟩
      · rintro ⟨k, st', hk, hok, hstep⟩
        rcases Nat.lt_succ_iff_lt_or_eq.mp hk with hk' | rfl
        · have := ih.mpr ⟨k, st', hk', hok, hstep⟩
          rw [h] at this
          exact absurd this (by simp)
        · rw [h] at hok
          obtain rfl : st = st' := by simpa using hok
          exact hstep

/-- C6: `new(A)` aborts with the rank-deficiency diagnostic exactly when
the pivot value chosen for some (reached) column is exactly zero; in
particular, for every square input whose chosen pivot at every column is
nonzero the zero-pivot check never fires — no other abort of `new` ever
produces the rank-deficiency error. -/
theorem c6_rank_deficiency (a : Csc) :
    LeftLookingLUFactorization.new a = .error .rankDeficient ↔
      (a.nrows = a.ncols ∧
        ∃ k st, k < a.nrows ∧ luFold a k = .ok st ∧
          pivotValue a.nrows st k = some 0) := by
  unfold LeftLookingLUFactorization.new
  by_cases hsq : a.nrows ≠ a.ncols
  · rw [if_pos hsq]
    simp [hsq]
  · rw [if_neg hsq]
    push_neg at hsq
    have hmap : ∀ x : Except LuErr LuState,
        x.map (fun st => (⟨st.builder.build, st.pivot⟩ : LeftLookingLUFactorization)) =
            .error .rankDeficient ↔
          x = .error .rankDeficient := by
      intro x
      cases x <;> simp [Except.map]
    rw [hmap, luFold_eq_error_iff]
    constructor
    · rintro ⟨k, st, hk, hok, hstep⟩
      exact ⟨hsq, k, st, hk, hok, (luStep_rankDeficient_iff _ _ _).mp hstep⟩
    · rintro ⟨-, k, st, hk, hok, hpv⟩
      exact ⟨k, st, hk, hok, (luStep_rankDeficient_iff _ _ _).mpr hpv⟩

/-- Witness for `c2_pivot_ties_last` at the tie state of `exampleTie`. -/
theorem c2_pivot_ties_last_witness :
    (([1, 1] : List F).enum.filter (fun p => 0 ≤ ([0, 1] : List ℕ).getD p.1 0) ≠ []) ∧
      ∃ p ∈ ([1, 1] : List F).enum.filter (fun p => 0 ≤ ([0, 1] : List ℕ).getD p.1 0),
        selectPivot [1, 1] [0, 1] 0 = p.1 ∧
        (∀ q ∈ ([1, 1] : List F).enum.filter (fun p => 0 ≤ ([0, 1] : List ℕ).getD p.1 0),
          |q.2| ≤ |p.2|) ∧
        (∀ q ∈ ([1, 1] : List F).enum.filter (fun p => 0 ≤ ([0, 1] : List ℕ).getD p.1 0),
          |q.2| = |p.2| → q.1 ≤ p.1) :=
  ⟨by decide, c2_pivot_ties_last [1, 1] [0, 1] 0 (by decide)⟩

namespace SparsityPattern

theorem entriesAux_nil (i : ℕ) (m : List ℕ) : entriesAux i [] m = [] := rfl

theorem entriesAux_single (i s : ℕ) (m : List ℕ) : entriesAux i [s] m = [] := rfl

theorem entriesAux_cons₂ (i s e : ℕ) (rest m : List ℕ) :
    entriesAux i (s :: e :: rest) m =
      ((m.drop s).take (e - s)).map (fun x => (i, x)) ++
        entriesAux (i + 1) (e :: rest) m := rfl

/-- Lanes whose bounds lie inside `m` are unaffected by appending to `m`. -/
theorem entriesAux_append_right (o : List ℕ) (m m' : List ℕ) :
    ∀ i, (∀ x ∈ o, x ≤ m.length) →
      entriesAux i o (m ++ m') = entriesAux i o m := by
  induction o with
  | nil => intro i _; rfl
  | cons s rest ih =>
    intro i hb
    cases rest with
    | nil => rfl
    | cons e rest' =>
      rw [entriesAux_cons₂, entriesAux_cons₂,
        ih (i + 1) (fun x hx => hb x (List.mem_cons_of_mem _ hx))]
      have hs : s ≤ m.length := hb s (List.mem_cons_self _ _)
      have he : e ≤ m.length := hb e (by simp)
      have hd : (m ++ m').drop s = m.drop s ++ m' := List.drop_append_of_le_length hs
      have ht : (m.drop s ++ m').take (e - s) = (m.drop s).take (e - s) :=
        List.take_append_of_le_length (by simpa using Nat.sub_le_sub_right he s)
      rw [hd, ht]

/-- A block of equal offsets contributes no entries. -/
theorem entriesAux_replicate (k : ℕ) : ∀ (i n : ℕ) (m : List ℕ),
    entriesAux i (List.replicate k n) m = [] := by
  induction k with
  | zero => intro i n m; rfl
  | succ k ih =>
    intro i n m
    cases k with
    | zero => rfl
    | succ k' =>
      rw [List.replicate_succ, List.replicate_succ, entriesAux_cons₂,
        ← List.replicate_succ, ih]
      simp

/-- Splitting `entriesAux` at an interior offset. -/
theorem entriesAux_append_mid (u : List ℕ) (x : ℕ) (v m : List ℕ) :
    ∀ i, entriesAux i (u ++ x :: v) m =
      entriesAux i (u ++ [x]) m ++ entriesAux (i + u.length) (x :: v) m := by
  induction u with
  | nil => intro i; simp [entriesAux_single]
  | cons s u' ih =>
    intro i
    cases u' with
    | nil =>
      cases v with
      | nil => simp [entriesAux_cons₂, entriesAux_single]
      | cons w v' => simp [entriesAux_cons₂, entriesAux_single]
    | cons e u'' =>
      have h1 : (s :: e :: u'') ++ x :: v = s :: ((e :: u'') ++ x :: v) := rfl
      have h2 : (s :: e :: u'') ++ [x] = s :: ((e :: u'') ++ [x]) := rfl
      rw [h1, h2]
      have h3 : (e :: u'') ++ x :: v = e :: (u'' ++ x :: v) := rfl
      have h4 : (e :: u'') ++ [x] = e :: (u'' ++ [x]) := rfl
      rw [h3, entriesAux_cons₂, ← h3, ih (i + 1), h4, entriesAux_cons₂, ← h4]
      have hlen : i + 1 + (e :: u'').length = i + (s :: e :: u'').length := by
        simp only [List.length_cons]
        omega
      rw [hlen, List.append_assoc]

end SparsityPattern

theorem list_dropLast_append_getLastD {l : List ℕ} (h : l ≠ []) :
    l.dropLast ++ [l.getLastD 0] = l := by
  rw [List.getLastD_eq_getLast? , List.getLast?_eq_getLast l h]
  exact List.dropLast_append_getLast h

theorem list_getLastD_mem {l : List ℕ} (h : l ≠ []) : l.getLastD 0 ∈ l := by
  rw [List.getLastD_eq_getLast?, List.getLast?_eq_getLast l h]
  exact List.getLast_mem h

namespace SparsityPatternBuilder

/-- `build` pads the offsets (never truncates) when the builder holds at
most `major_dim + 1` offsets. -/
theorem build_offsets (b : SparsityPatternBuilder)
    (h : b.buf.majorOffsets.length ≤ b.majorDim + 1) :
    b.build.majorOffsets = b.buf.majorOffsets ++
      List.replicate (b.majorDim + 1 - b.buf.majorOffsets.length)
        b.buf.minorIndices.length := by
  unfold build
  exact List.take_of_length_le (by simp; omega)

/-- `build` leaves the minor indices untouched. -/
theorem build_minors (b : SparsityPatternBuilder) :
    b.build.minorIndices = b.buf.minorIndices := rfl

/-- The built pattern has the declared major dimension. -/
theorem build_majorDim (b : SparsityPatternBuilder)
    (h : b.buf.majorOffsets.length ≤ b.majorDim + 1) :
    b.build.majorDim = b.majorDim := by
  unfold SparsityPattern.majorDim
  rw [build_offsets b h]
  simp
  omega

/-- Closed form of the built pattern's entries: the entries of the closed
lanes followed by the (still open) last lane holding every minor index
from the last offset on. -/
theorem build_entries_closed (b : SparsityPatternBuilder)
    (hne : b.buf.majorOffsets ≠ [])
    (hb : ∀ x ∈ b.buf.majorOffsets, x ≤ b.buf.minorIndices.length)
    (hlen : b.buf.majorOffsets.length ≤ b.majorDim) :
    b.build.entries =
      SparsityPattern.entriesAux 0 b.buf.majorOffsets b.buf.minorIndices ++
        (b.buf.minorIndices.drop (b.buf.majorOffsets.getLastD 0)).map
          (fun x => (b.buf.majorOffsets.length - 1, x)) := by
  have hoff := build_offsets b (le_trans hlen (Nat.le_succ _))
  set o := b.buf.majorOffsets with ho
  set m := b.buf.minorIndices with hm
  set L := o.getLastD 0 with hL
  obtain ⟨t', ht'⟩ : ∃ t', b.majorDim + 1 - o.length = t' + 1 :=
    ⟨b.majorDim - o.length, by omega⟩
  have hsplit : o ++ List.replicate (b.majorDim + 1 - o.length) m.length =
      o.dropLast ++ (L :: (m.length :: List.replicate t' m.length)) := by
    rw [ht', List.replicate_succ]
    rw [← list_dropLast_append_getLastD hne]
    simp [← hL]
    rw [hL, List.getLastD_eq_getLast?]
  have hL_le : L ≤ m.length := hb L (list_getLastD_mem hne)
  unfold SparsityPattern.entries
  rw [hoff, build_minors, hsplit, SparsityPattern.entriesAux_append_mid,
    SparsityPattern.entriesAux_cons₂]
  have hrep : SparsityPattern.entriesAux (0 + o.dropLast.length + 1)
      (m.length :: List.replicate t' m.length) m = [] := by
    rw [← List.replicate_succ]
    exact SparsityPattern.entriesAux_replicate _ _ _ _
  rw [hrep, List.append_nil]
  have htake : (m.drop L).take (m.length - L) = m.drop L :=
    List.take_of_length_le (by simp)
  rw [htake]
  have hfold : o.dropLast ++ [L] = o := list_dropLast_append_getLastD hne
  rw [hfold]
  have hlen' : o.dropLast.length = o.length - 1 := List.length_dropLast o
  rw [Nat.zero_add, hlen']

end SparsityPatternBuilder

namespace SparsityPatternBuilder

/-- One accepted `insert (maj, mn)` appends exactly `(maj, mn)` to the
entries of the built pattern, preserving the offsets-shape invariant and
the declared major dimension. -/
theorem insert_entries_step {b b₂ : SparsityPatternBuilder} {maj mn : ℕ}
    (hinv : EntriesInv b) (hok : b.insert maj mn = .ok b₂)
    (hmaj : maj < b.majorDim) :
    b₂.build.entries = b.build.entries ++ [(maj, mn)] ∧
      EntriesInv b₂ ∧ b₂.majorDim = b.majorDim := by
  obtain ⟨hne, hb, hlen⟩ := hinv
  have holen : 1 ≤ b.buf.majorOffsets.length := List.length_pos.mpr hne
  unfold insert at hok
  by_cases h1 : maj < b.buf.majorDim
  · rw [if_pos h1] at hok
    exact absurd hok (by simp)
  · rw [if_neg h1] at hok
    by_cases h2 : maj = b.buf.majorDim ∧
        b.buf.majorOffsets.getLastD 0 < b.buf.minorIndices.length ∧
        b.buf.minorIndices ≠ [] ∧ mn ≤ b.buf.minorIndices.getLastD 0
    · rw [if_pos h2] at hok
      exact absurd hok (by simp)
    · rw [if_neg h2] at hok
      replace hok := Except.ok.inj hok
      subst hok
      have hcurr : b.buf.majorDim = b.buf.majorOffsets.length - 1 := rfl
      have hmaj' : b.buf.majorOffsets.length - 1 ≤ maj := by
        rw [← hcurr]; exact Nat.not_lt.mp h1
      set o := b.buf.majorOffsets with ho
      set m := b.buf.minorIndices with hm
      have hL_le : o.getLastD 0 ≤ m.length := hb _ (list_getLastD_mem hne)
      have hinv₂ : EntriesInv
          ⟨⟨o ++ List.replicate (maj - b.buf.majorDim) m.length, m ++ [mn],
            b.buf.minorDim⟩, b.majorDim⟩ := by
        refine ⟨by simp [hne], ?_, ?_⟩
        · intro x hx
          simp only [List.length_append, List.length_singleton]
          rcases List.mem_append.mp hx with hx | hx
          · exact le_trans (hb x hx) (Nat.le_succ _)
          · rw [List.eq_of_mem_replicate hx]
            exact Nat.le_succ _
        · simp only [List.length_append, List.length_replicate]
          have : o.length + (maj - b.buf.majorDim) = maj + 1 := by
            rw [hcurr]
            omega
          omega
      refine ⟨?_, hinv₂, rfl⟩
      have hlen₂ : (o ++ List.replicate (maj - b.buf.majorDim) m.length).length ≤
          b.majorDim := hinv₂.2.2
      rw [build_entries_closed b hne hb hlen]
      rw [build_entries_closed _ (by simp [hne]) hinv₂.2.1 hlen₂]
      dsimp only
      rcases Nat.eq_zero_or_pos (maj - b.buf.majorDim) with hk0 | hkpos
      · -- maj = curr: no offsets appended
        have hmeq : maj = o.length - 1 := by omega
        simp only [hk0, List.replicate_zero, List.append_nil]
        rw [SparsityPattern.entriesAux_append_right o m [mn] 0 hb]
        rw [List.drop_append_of_le_length hL_le]
        rw [List.map_append, ← List.append_assoc]
        simp [hmeq]
      · -- maj > curr: a positive number of offsets appended
        obtain ⟨k', hkeq⟩ : ∃ k', maj - b.buf.majorDim = k' + 1 :=
          ⟨maj - b.buf.majorDim - 1, by omega⟩
        rw [hkeq]
        have hc₂ : (o ++ List.replicate (k' + 1) m.length).length - 1 = maj := by
          simp only [List.length_append, List.length_replicate]
          rw [hcurr] at hkeq
          omega
        have hlast₂ : (o ++ List.replicate (k' + 1) m.length).getLastD 0 = m.length := by
          rw [List.replicate_succ', ← List.append_assoc]
          exact List.getLastD_concat _ _ _
        have hdropn : (m ++ [mn]).drop m.length = [mn] := by
          rw [List.drop_append_of_le_length (le_refl _), List.drop_length]
          rfl
        have hsplit₂ : o ++ List.replicate (k' + 1) m.length =
            o.dropLast ++ (o.getLastD 0 :: (m.length :: List.replicate k' m.length)) := by
          rw [← list_dropLast_append_getLastD hne]
          simp [List.replicate_succ]
          try rw [List.getLastD_eq_getLast?]
        rw [hc₂, hlast₂, hdropn, hsplit₂, SparsityPattern.entriesAux_append_mid,
          SparsityPattern.entriesAux_cons₂]
        have hrep : SparsityPattern.entriesAux (0 + o.dropLast.length + 1)
            (m.length :: List.replicate k' m.length) (m ++ [mn]) = [] := by
          rw [← List.replicate_succ]
          exact SparsityPattern.entriesAux_replicate _ _ _ _
        rw [hrep, List.append_nil]
        have hfold : o.dropLast ++ [o.getLastD 0] = o := list_dropLast_append_getLastD hne
        rw [hfold]
        rw [SparsityPattern.entriesAux_append_right o m [mn] 0 hb]
        have htake : ((m ++ [mn]).drop (o.getLastD 0)).take (m.length - o.getLastD 0) =
            m.drop (o.getLastD 0) := by
          rw [List.drop_append_of_le_length hL_le]
          rw [List.take_append_of_le_length (by simp)]
          exact List.take_of_length_le (by simp)
        rw [htake]
        have hcc : o.dropLast.length = o.length - 1 := List.length_dropLast o
        simp [List.append_assoc, hcc]

end SparsityPatternBuilder

namespace SparsityPatternBuilder

/-- A fresh builder builds a pattern with no entries. -/
theorem new_build_entries (md nd : ℕ) : (new md nd).build.entries = [] := by
  have hoff : (new md nd).build.majorOffsets = List.replicate (md + 1) 0 := by
    have h0 : (new md nd).build.majorOffsets =
        (([0] : List ℕ) ++ List.replicate (md + 1 - 1) 0).take (md + 1) := rfl
    rw [h0, show ([0] : List ℕ) ++ List.replicate (md + 1 - 1) 0 =
        List.replicate (md + 1) 0 from by simp [List.replicate_succ]]
    exact List.take_of_length_le (by simp)
  unfold SparsityPattern.entries
  rw [hoff]
  exact SparsityPattern.entriesAux_replicate _ _ _ _

/-- Lifting `insert_entries_step` over a whole accepted sequence. -/
theorem insertAll_entries (l : List (ℕ × ℕ)) :
    ∀ b b' : SparsityPatternBuilder, EntriesInv b →
      b.insertAll l = .ok b' → (∀ p ∈ l, p.1 < b.majorDim) →
      b'.build.entries = b.build.entries ++ l ∧ b'.majorDim = b.majorDim ∧
        EntriesInv b' := by
  induction l with
  | nil =>
    intro b b' hinv hok _
    obtain rfl : b = b' := by simpa [insertAll, pure, Except.pure] using hok
    exact ⟨by simp, rfl, hinv⟩
  | cons p l' ih =>
    intro b b' hinv hok hr
    cases hstep : b.insert p.1 p.2 with
    | error e =>
      rw [insertAll, List.foldlM_cons, hstep] at hok
      exact Except.noConfusion hok
    | ok b₁ =>
      rw [insertAll, List.foldlM_cons, hstep] at hok
      replace hok : b₁.insertAll l' = .ok b' := hok
      obtain ⟨he, hinv₁, hmd⟩ := insert_entries_step hinv hstep (hr p (by simp))
      obtain ⟨ih1, ih2, ih3⟩ := ih b₁ b' hinv₁ hok
        (fun q hq => by rw [hmd]; exact hr q (by simp [hq]))
      refine ⟨?_, by rw [ih2, hmd], ih3⟩
      rw [ih1, he, List.append_assoc]
      rfl

end SparsityPatternBuilder

/-- C5: for every declared `major_dim`/`minor_dim` and every sequence of
`(major, minor)` pairs each accepted without error by
`SparsityPatternBuilder::insert` (with all indices in range, as the
source's `assert!`s require), the pattern returned by `build()` has the
declared major dimension and its `entries()` are exactly the inserted
pairs in insertion order. -/
theorem c5_builder_entries (md nd : ℕ) (l : List (ℕ × ℕ))
    (b' : SparsityPatternBuilder)
    (hok : (SparsityPatternBuilder.new md nd).insertAll l = .ok b')
    (hrange : ∀ p ∈ l, p.1 < md ∧ p.2 < nd) :
    b'.build.majorDim = md ∧ b'.build.entries = l := by
  cases l with
  | nil =>
    obtain rfl : SparsityPatternBuilder.new md nd = b' := by
      simpa [SparsityPatternBuilder.insertAll, pure, Except.pure] using hok
    exact ⟨SparsityPatternBuilder.build_majorDim _ (by simp [SparsityPatternBuilder.new]),
      SparsityPatternBuilder.new_build_entries md nd⟩
  | cons p l'' =>
    have hmd1 : 1 ≤ md := by
      have := (hrange p (by simp)).1
      omega
    have hinv0 : EntriesInv (SparsityPatternBuilder.new md nd) := by
      refine ⟨by simp [SparsityPatternBuilder.new], by simp [SparsityPatternBuilder.new], ?_⟩
      simp [SparsityPatternBuilder.new]
      omega
    obtain ⟨h1, h2, h3⟩ := SparsityPatternBuilder.insertAll_entries (p :: l'') _ b' hinv0 hok
      (fun q hq => (hrange q hq).1)
    refine ⟨?_, ?_⟩
    · rw [SparsityPatternBuilder.build_majorDim b' (le_trans h3.2.2 (Nat.le_succ _)), h2]
      rfl
    · rw [h1, SparsityPatternBuilder.new_build_entries]
      rfl

/-- Witness for `c5_builder_entries` on a concrete two-insert sequence. -/
theorem c5_builder_entries_witness :
    (SparsityPatternBuilder.new 2 2).insertAll [(0, 1), (1, 0)] =
        .ok (⟨⟨[0, 1], [1, 0], 2⟩, 2⟩ : SparsityPatternBuilder) ∧
      (∀ p ∈ ([(0, 1), (1, 0)] : List (ℕ × ℕ)), p.1 < 2 ∧ p.2 < 2) ∧
      ((⟨⟨[0, 1], [1, 0], 2⟩, 2⟩ : SparsityPatternBuilder).build.majorDim = 2 ∧
        (⟨⟨[0, 1], [1, 0], 2⟩, 2⟩ : SparsityPatternBuilder).build.entries = [(0, 1), (1, 0)]) :=
  ⟨by decide, by decide,
    c5_builder_entries 2 2 [(0, 1), (1, 0)] ⟨⟨[0, 1], [1, 0], 2⟩, 2⟩ (by decide) (by decide)⟩

namespace SparsityPatternBuilder

/-- An insert whose key strictly lex-exceeds the last accepted key is
accepted, and re-establishes the invariant for the new key. -/
theorem insert_ok_of_inv {b : SparsityPatternBuilder} {lk : Option (ℕ × ℕ)}
    {p : ℕ × ℕ} (hinv : BuilderInv b lk) (hgt : chainFrom lk [p]) :
    ∃ b₂, b.insert p.1 p.2 = .ok b₂ ∧ BuilderInv b₂ (some p) := by
  obtain ⟨⟨bo, bm, bd⟩, bmd⟩ := b
  obtain ⟨hne, hb, hshape⟩ := hinv
  simp only at hne hb hshape
  have hbo1 : 1 ≤ bo.length := List.length_pos.mpr hne
  have hbound : ∀ q : ℕ × ℕ,
      (SparsityPattern.majorDim ⟨bo, bm, bd⟩ ≤ q.1) →
      BuilderInv ⟨⟨bo ++ List.replicate (q.1 - SparsityPattern.majorDim ⟨bo, bm, bd⟩)
          bm.length, bm ++ [q.2], bd⟩, bmd⟩ (some q) := by
    intro q hq
    have hcurr : SparsityPattern.majorDim ⟨bo, bm, bd⟩ = bo.length - 1 := rfl
    refine ⟨by simp [hne], ?_, ?_, by simp, ?_, ?_⟩
    · intro x hx
      simp only [List.length_append, List.length_singleton]
      rcases List.mem_append.mp hx with hx | hx
      · exact le_trans (hb x hx) (Nat.le_succ _)
      · rw [List.eq_of_mem_replicate hx]
        exact Nat.le_succ _
    · simp only [List.length_append, List.length_replicate]
      omega
    · exact List.getLastD_concat _ _ _
    · have hmem := @list_getLastD_mem
        (bo ++ List.replicate (q.1 - SparsityPattern.majorDim ⟨bo, bm, bd⟩) bm.length)
        (by simp [hne])
      simp only [List.length_append, List.length_singleton]
      rcases List.mem_append.mp hmem with hx | hx
      · exact lt_of_le_of_lt (hb _ hx) (by omega)
      · rw [List.eq_of_mem_replicate hx]
        omega
  cases lk with
  | none =>
    obtain ⟨ho, hm⟩ := hshape
    subst ho hm
    refine ⟨⟨⟨[0] ++ List.replicate (p.1 - SparsityPattern.majorDim ⟨[0], [], bd⟩)
        ([] : List ℕ).length, [] ++ [p.2], bd⟩, bmd⟩, ?_,
      hbound p (by simp [SparsityPattern.majorDim])⟩
    unfold insert
    rw [if_neg (by simp [SparsityPattern.majorDim]), if_neg (by simp)]
  | some k =>
    obtain ⟨hlen, hmne, hlast, hofflt⟩ := hshape
    have hkp : keyLt k p := (List.chain'_cons.mp hgt).1
    have hcurr : SparsityPattern.majorDim ⟨bo, bm, bd⟩ = k.1 := by
      simp [SparsityPattern.majorDim, hlen]
    have hge : k.1 ≤ p.1 := by
      rcases hkp with h | ⟨h, _⟩
      · exact le_of_lt h
      · exact le_of_eq h
    refine ⟨⟨⟨bo ++ List.replicate (p.1 - SparsityPattern.majorDim ⟨bo, bm, bd⟩)
        bm.length, bm ++ [p.2], bd⟩, bmd⟩, ?_, hbound p (by rw [hcurr]; exact hge)⟩
    unfold insert
    rw [if_neg (by simp only [hcurr]; omega)]
    rw [if_neg ?hcond]
    case hcond =>
      rintro ⟨heq, -, -, hle⟩
      rw [hcurr] at heq
      rcases hkp with h | ⟨h, h2⟩
      · omega
      · rw [hlast] at hle
        omega

/-- A whole strictly-ascending key sequence is accepted. -/
theorem insertAll_ok_of_chain (l : List (ℕ × ℕ)) :
    ∀ (b : SparsityPatternBuilder) (lk : Option (ℕ × ℕ)),
      BuilderInv b lk → chainFrom lk l →
      ∃ b', b.insertAll l = .ok b' := by
  induction l with
  | nil => intro b lk _ _; exact ⟨b, rfl⟩
  | cons p l' ih =>
    intro b lk hinv hchain
    have hgt : chainFrom lk [p] := by
      cases lk with
      | none => simp [chainFrom]
      | some k =>
        simp only [chainFrom] at hchain ⊢
        exact List.chain'_pair.mpr (List.chain'_cons.mp hchain).1
    obtain ⟨b₂, hok, hinv₂⟩ := insert_ok_of_inv hinv hgt
    have hchain' : chainFrom (some p) l' := by
      cases lk with
      | none => exact hchain
      | some k => exact (List.chain'_cons.mp hchain).2
    obtain ⟨b', hok'⟩ := ih b₂ (some p) hinv₂ hchain'
    refine ⟨b', ?_⟩
    rw [insertAll, List.foldlM_cons, hok]
    exact hok'

end SparsityPatternBuilder

/-- The `CscBuilder` insertion fold succeeds iff the underlying pattern
insertions succeed, pushing exactly the inserted values in order. -/
theorem csFold_spb (l : List ((ℕ × ℕ) × F)) :
    ∀ (cb : CsBuilder) (b' : SparsityPatternBuilder),
      cb.sparsityBuilder.insertAll (l.map Prod.fst) = .ok b' →
      l.foldlM (fun b r => CscBuilder.insert b r.1.2 r.1.1 r.2) cb =
        .ok ⟨b', cb.values ++ l.map Prod.snd⟩ := by
  induction l with
  | nil =>
    intro cb b' hok
    obtain rfl : cb.sparsityBuilder = b' := by
      simpa [SparsityPatternBuilder.insertAll, pure, Except.pure] using hok
    simp [pure, Except.pure]
  | cons r l' ih =>
    intro cb b' hok
    rw [List.map_cons, SparsityPatternBuilder.insertAll, List.foldlM_cons] at hok
    cases hstep : cb.sparsityBuilder.insert r.1.1 r.1.2 with
    | error e =>
      rw [hstep] at hok
      exact Except.noConfusion hok
    | ok sb₁ =>
      rw [hstep] at hok
      replace hok : sb₁.insertAll (l'.map Prod.fst) = .ok b' := hok
      rw [List.foldlM_cons]
      have hins : CscBuilder.insert cb r.1.2 r.1.1 r.2 =
          .ok ⟨sb₁, cb.values ++ [r.2]⟩ := by
        unfold CscBuilder.insert CsBuilder.insert
        rw [hstep]
      rw [hins]
      refine Eq.trans (ih ⟨sb₁, cb.values ++ [r.2]⟩ b' hok) ?_
      simp

/-- C10: for every `rows`, `cols` and every B-tree map whose keys
`[x, y]` are all in range (`x < cols`, `y < rows`), `from_btreemap`
returns `Ok` — the map's strictly ascending lexicographic key iteration
order coincides with the builder's required insertion order and a map
holds no duplicate keys, so neither `MajorTooLow` nor `MinorTooLow` can
occur. -/
theorem c10_from_btreemap_ok (rows cols : ℕ) (l : List ((ℕ × ℕ) × F))
    (hsorted : List.Chain' keyLt (l.map Prod.fst))
    (_hrange : ∀ r ∈ l, r.1.1 < cols ∧ r.1.2 < rows) :
    ∃ M, Csc.fromBtreemap rows cols l = .ok M := by
  have hinv0 : BuilderInv (SparsityPatternBuilder.new cols rows) none :=
    ⟨by simp [SparsityPatternBuilder.new], by simp [SparsityPatternBuilder.new], rfl, rfl⟩
  obtain ⟨b', hok⟩ := SparsityPatternBuilder.insertAll_ok_of_chain
    (l.map Prod.fst) (CscBuilder.new rows cols).sparsityBuilder none hinv0 hsorted
  refine ⟨(⟨b', (CscBuilder.new rows cols).values ++ l.map Prod.snd⟩ : CsBuilder).build, ?_⟩
  unfold Csc.fromBtreemap
  rw [csFold_spb l (CscBuilder.new rows cols) b' hok]
  rfl

/-- Witness for `c10_from_btreemap_ok` on a concrete two-key map. -/
theorem c10_from_btreemap_ok_witness :
    List.Chain' keyLt ([((0, 0), (3 : F)), ((1, 1), 4)].map Prod.fst) ∧
      (∀ r ∈ [((0, 0), (3 : F)), ((1, 1), 4)], r.1.1 < 2 ∧ r.1.2 < 2) ∧
      ∃ M, Csc.fromBtreemap 2 2 [((0, 0), (3 : F)), ((1, 1), 4)] = .ok M :=
  ⟨by simp [keyLt], by decide,
    c10_from_btreemap_ok 2 2 [((0, 0), 3), ((1, 1), 4)] (by simp [keyLt]) (by decide)⟩

section ConcreteEvaluationTwo

attribute [local semireducible] Rat.mul Rat.inv Rat.add Rat.sub

/-- C7 (counterexample): the record `([0, 1], 5)` — read per the claim as
row `0`, column `1`, value `5` — inserted through
`from_triplets(rows = 2, cols = 2)` lands at *column 0, row 1*: the
resulting matrix stores `(major 0, minor 1)` and stores nothing in
column 1, so the claimed entry at row 0, column 1 (i.e. `(major 1,
minor 0)`) is absent.  The triplet key is `[col, row]`, not `[row, col]`. -/
theorem c7_key_order_cex :
    Csc.fromTriplets 2 2 [((0, 1), (5 : F))] =
        .ok ⟨⟨[0, 1, 1], [1], 2⟩, [5]⟩ ∧
      (0, 1) ∈ (⟨⟨[0, 1, 1], [1], 2⟩, [5]⟩ : CsMatrix).pattern.entries ∧
      ¬ ((1, 0) ∈ (⟨⟨[0, 1, 1], [1], 2⟩, [5]⟩ : CsMatrix).pattern.entries) := by
  refine ⟨?_, by decide, by decide⟩
  unfold Csc.fromTriplets
  rw [List.mergeSort_singleton]
  decide

end ConcreteEvaluationTwo

/-- C7 (amended): for every `rows`, `cols` and every in-range,
duplicate-free collection of triplet records `([x, y], value)` — where
`x` is the *column* and `y` the *row*, i.e. the key is `[col, row]` —
`from_triplets` sorts the buffer by the key (lexicographically, which is
column-major order), returns `Ok`, and produces a matrix whose stored
entries, in storage order, are exactly the sorted records: pattern entry
`(major x, minor y)` paired with `value`. -/
theorem c7_from_triplets_colrow (rows cols : ℕ) (t : List ((ℕ × ℕ) × F))
    (hnodup : (t.map Prod.fst).Nodup)
    (hrange : ∀ r ∈ t, r.1.1 < cols ∧ r.1.2 < rows) :
    ∃ M, Csc.fromTriplets rows cols t = .ok M ∧
      M.pattern.entries = (t.mergeSort
        (fun p q => p.1.1 < q.1.1 ∨ (p.1.1 = q.1.1 ∧ p.1.2 ≤ q.1.2))).map Prod.fst ∧
      M.values = (t.mergeSort
        (fun p q => p.1.1 < q.1.1 ∨ (p.1.1 = q.1.1 ∧ p.1.2 ≤ q.1.2))).map Prod.snd := by
  have htrans : ∀ a b c : (ℕ × ℕ) × F,
      (fun p q : (ℕ × ℕ) × F =>
        decide (p.1.1 < q.1.1 ∨ (p.1.1 = q.1.1 ∧ p.1.2 ≤ q.1.2))) a b →
      (fun p q : (ℕ × ℕ) × F =>
        decide (p.1.1 < q.1.1 ∨ (p.1.1 = q.1.1 ∧ p.1.2 ≤ q.1.2))) b c →
      (fun p q : (ℕ × ℕ) × F =>
        decide (p.1.1 < q.1.1 ∨ (p.1.1 = q.1.1 ∧ p.1.2 ≤ q.1.2))) a c := by
    intro a b c hab hbc
    simp only [decide_eq_true_eq] at *
    omega
  have htotal : ∀ a b : (ℕ × ℕ) × F,
      ((fun p q : (ℕ × ℕ) × F =>
        decide (p.1.1 < q.1.1 ∨ (p.1.1 = q.1.1 ∧ p.1.2 ≤ q.1.2))) a b ||
       (fun p q : (ℕ × ℕ) × F =>
        decide (p.1.1 < q.1.1 ∨ (p.1.1 = q.1.1 ∧ p.1.2 ≤ q.1.2))) b a) := by
    intro a b
    simp only [Bool.or_eq_true, decide_eq_true_eq]
    omega
  have hpair := List.sorted_mergeSort htrans htotal t
  have hperm := List.mergeSort_perm t
    (fun p q : (ℕ × ℕ) × F =>
      decide (p.1.1 < q.1.1 ∨ (p.1.1 = q.1.1 ∧ p.1.2 ≤ q.1.2)))
  have hkeysnodup :
      ((t.mergeSort (fun p q => p.1.1 < q.1.1 ∨ (p.1.1 = q.1.1 ∧ p.1.2 ≤ q.1.2))).map
        Prod.fst).Nodup :=
    (List.Perm.nodup_iff (hperm.map Prod.fst)).mpr hnodup
  have hpairkeys :
      ((t.mergeSort (fun p q => p.1.1 < q.1.1 ∨ (p.1.1 = q.1.1 ∧ p.1.2 ≤ q.1.2))).map
        Prod.fst).Pairwise
        (fun a b : ℕ × ℕ => a.1 < b.1 ∨ (a.1 = b.1 ∧ a.2 ≤ b.2)) := by
    rw [List.pairwise_map]
    exact hpair.imp (fun h => by simpa using h)
  have hchain : List.Chain' keyLt
      ((t.mergeSort (fun p q => p.1.1 < q.1.1 ∨ (p.1.1 = q.1.1 ∧ p.1.2 ≤ q.1.2))).map
        Prod.fst) := by
    refine List.Pairwise.chain' ((hpairkeys.and hkeysnodup).imp ?_)
    rintro a b ⟨hle, hne⟩
    rcases hle with h | ⟨h1, h2⟩
    · exact Or.inl h
    · refine Or.inr ⟨h1, lt_of_le_of_ne h2 (fun h3 => hne (Prod.ext h1 h3))⟩
  have hinvB : BuilderInv (SparsityPatternBuilder.new cols rows) none :=
    ⟨by simp [SparsityPatternBuilder.new], by simp [SparsityPatternBuilder.new], rfl, rfl⟩
  obtain ⟨b', hokS⟩ := SparsityPatternBuilder.insertAll_ok_of_chain _
    (CscBuilder.new rows cols).sparsityBuilder none hinvB hchain
  have hfold := csFold_spb
    (t.mergeSort (fun p q => p.1.1 < q.1.1 ∨ (p.1.1 = q.1.1 ∧ p.1.2 ≤ q.1.2)))
    (CscBuilder.new rows cols) b' hokS
  refine ⟨(⟨b', ([] : List F) ++ (t.mergeSort
      (fun p q => p.1.1 < q.1.1 ∨ (p.1.1 = q.1.1 ∧ p.1.2 ≤ q.1.2))).map Prod.snd⟩ :
        CsBuilder).build, ?_, ?_, ?_⟩
  · simp only [Csc.fromTriplets]
    rw [hfold]
    rfl
  · show b'.build.entries = _
    rcases List.eq_nil_or_concat t with rfl | ⟨t₀, r, rfl⟩
    · obtain rfl : (SparsityPatternBuilder.new cols rows) = b' := by
        simpa [SparsityPatternBuilder.insertAll, pure, Except.pure] using hokS
      simp [SparsityPatternBuilder.new_build_entries]
    · have hcols1 : 1 ≤ cols := by
        have := (hrange r (by simp)).1
        omega
      have hinvE : EntriesInv (SparsityPatternBuilder.new cols rows) := by
        refine ⟨by simp [SparsityPatternBuilder.new],
          by simp [SparsityPatternBuilder.new], ?_⟩
        simp [SparsityPatternBuilder.new]
        omega
      have hrg : ∀ q ∈ ((t₀.concat r).mergeSort
          (fun p q => p.1.1 < q.1.1 ∨ (p.1.1 = q.1.1 ∧ p.1.2 ≤ q.1.2))).map Prod.fst,
          q.1 < (SparsityPatternBuilder.new cols rows).majorDim := by
        intro q hq
        obtain ⟨s, hs, rfl⟩ := List.mem_map.mp hq
        exact (hrange s (hperm.subset hs)).1
      obtain ⟨hent, hmd, hinv'⟩ := SparsityPatternBuilder.insertAll_entries _ _ b'
        hinvE hokS hrg
      simp [hent, SparsityPatternBuilder.new_build_entries]
  · simp [CsBuilder.build]

/-- Witness for C7 (amended): on the in-range, duplicate-free triplet
buffer `[([0, 1], 5)]` with `rows = cols = 2`, the hypotheses hold and
the theorem applies. -/
theorem c7_from_triplets_colrow_witness :
    (([(((0 : ℕ), (1 : ℕ)), (5 : F))].map Prod.fst).Nodup) ∧
    (∀ r ∈ [(((0 : ℕ), (1 : ℕ)), (5 : F))], r.1.1 < 2 ∧ r.1.2 < 2) ∧
    (∃ M, Csc.fromTriplets 2 2 [(((0 : ℕ), (1 : ℕ)), (5 : F))] = .ok M ∧
      M.pattern.entries = ([(((0 : ℕ), (1 : ℕ)), (5 : F))].mergeSort
        (fun p q => p.1.1 < q.1.1 ∨ (p.1.1 = q.1.1 ∧ p.1.2 ≤ q.1.2))).map Prod.fst ∧
      M.values = ([(((0 : ℕ), (1 : ℕ)), (5 : F))].mergeSort
        (fun p q => p.1.1 < q.1.1 ∨ (p.1.1 = q.1.1 ∧ p.1.2 ≤ q.1.2))).map Prod.snd) :=
  ⟨by decide, by decide,
    c7_from_triplets_colrow 2 2 [(((0 : ℕ), (1 : ℕ)), (5 : F))] (by decide) (by decide)⟩

/-- A duplicate-free list of naturals all below `N` has length at most
`N` (fuel bound for the `reach` recursion). -/
theorem list_length_le_of_nodup_of_lt (N : ℕ) (l : List ℕ) (hn : l.Nodup)
    (hb : ∀ x ∈ l, x < N) : l.length ≤ N := by
  calc l.length = l.toFinset.card := (List.toFinset_card_of_nodup hn).symm
    _ ≤ (Finset.range N).card := Finset.card_le_card
        (fun x hx => Finset.mem_range.mpr (hb x (List.mem_toFinset.mp hx)))
    _ = N := Finset.card_range N

/-- Every element of a lane is an element of the minor-index array. -/
theorem SparsityPattern.lane_subset_minors {sp : SparsityPattern} {j x : ℕ}
    (h : x ∈ sp.lane j) : x ∈ sp.minorIndices :=
  List.mem_of_mem_drop (List.mem_of_mem_take h)

/-- Main invariant of the recursive `reach` (`builder.rs` 60-75): with
fuel at least `major_dim + 1 - |out|`, a call on root `j` extends `out`
by a block `l` of fresh indices such that the result is duplicate-free,
contains `j`, every new index is reachable from `j` along lower-
triangular edges, and every new index has all its out-edges inside the
result. -/
theorem SparsityPattern.reach_spec (sp : SparsityPattern)
    (hm : ∀ i ∈ sp.minorIndices, i < sp.majorDim) :
    ∀ fuel j out, j < sp.majorDim → out.Nodup →
      (∀ x ∈ out, x < sp.majorDim) →
      sp.majorDim + 1 ≤ fuel + out.length →
      ∃ l, sp.reach fuel j out = out ++ l ∧
        (out ++ l).Nodup ∧ (∀ x ∈ l, x < sp.majorDim) ∧ j ∈ out ++ l ∧
        (∀ x ∈ l, Relation.ReflTransGen sp.Edge j x) ∧
        (∀ x ∈ l, ∀ i, sp.Edge x i → i ∈ out ++ l) := by
  intro fuel
  induction fuel with
  | zero =>
    intro j out _ hnd hbd hfc
    have hlen := list_length_le_of_nodup_of_lt sp.majorDim out hnd hbd
    omega
  | succ fuel IH =>
    intro j out hj hnd hbd hfc
    by_cases hjo : j ∈ out
    · refine ⟨[], ?_, by simpa using hnd, by simp, by simpa using hjo,
        by simp, by simp⟩
      simp [SparsityPattern.reach, hjo]
    · have B : ∀ s : List ℕ, (∀ i ∈ s, i < sp.majorDim) →
          ∀ acc : List ℕ, acc.Nodup → (∀ x ∈ acc, x < sp.majorDim) →
          sp.majorDim + 1 ≤ fuel + acc.length →
          ∃ l, s.foldl (fun a i => if i < j then a else sp.reach fuel i a) acc
              = acc ++ l ∧
            (acc ++ l).Nodup ∧ (∀ x ∈ l, x < sp.majorDim) ∧
            (∀ x ∈ l, ∃ i ∈ s, ¬ i < j ∧ Relation.ReflTransGen sp.Edge i x) ∧
            (∀ x ∈ l, ∀ i, sp.Edge x i → i ∈ acc ++ l) ∧
            (∀ i ∈ s, ¬ i < j → i ∈ acc ++ l) := by
        intro s
        induction s with
        | nil =>
          intro _ acc hand _ _
          exact ⟨[], by simp, by simpa using hand, by simp, by simp, by simp,
            by simp⟩
        | cons i s' ihs =>
          intro hs acc hand habd hafc
          by_cases hij : i < j
          · obtain ⟨l, he, h1, h2, h3, h4, h5⟩ :=
              ihs (fun a ha => hs a (List.mem_cons_of_mem _ ha)) acc hand habd hafc
            refine ⟨l, ?_, h1, h2, ?_, h4, ?_⟩
            · rw [List.foldl_cons, if_pos hij]
              exact he
            · intro x hx
              obtain ⟨i', hi', hlt, hr⟩ := h3 x hx
              exact ⟨i', List.mem_cons_of_mem _ hi', hlt, hr⟩
            · intro i' hi' hlt
              rcases List.mem_cons.mp hi' with rfl | hmem
              · exact absurd hij hlt
              · exact h5 i' hmem hlt
          · obtain ⟨l₁, he₁, hnd₁, hb₁, hmem₁, hre₁, hcl₁⟩ :=
              IH i acc (hs i (List.mem_cons_self _ _)) hand habd hafc
            obtain ⟨l₂, he₂, hnd₂, hb₂, hre₂, hcl₂, hin₂⟩ :=
              ihs (fun a ha => hs a (List.mem_cons_of_mem _ ha)) (acc ++ l₁)
                hnd₁
                (fun x hx => (List.mem_append.mp hx).elim (habd x) (hb₁ x))
                (by simp only [List.length_append]; omega)
            refine ⟨l₁ ++ l₂, ?_, ?_, ?_, ?_, ?_, ?_⟩
            · rw [List.foldl_cons, if_neg hij, he₁, he₂, List.append_assoc]
            · rw [← List.append_assoc]
              exact hnd₂
            · intro x hx
              rcases List.mem_append.mp hx with h | h
              · exact hb₁ x h
              · exact hb₂ x h
            · intro x hx
              rcases List.mem_append.mp hx with h | h
              · exact ⟨i, List.mem_cons_self _ _, hij, hre₁ x h⟩
              · obtain ⟨i', hi', hlt, hr⟩ := hre₂ x h
                exact ⟨i', List.mem_cons_of_mem _ hi', hlt, hr⟩
            · intro x hx i' hedge
              rcases List.mem_append.mp hx with h | h
              · have hmem' := hcl₁ x h i' hedge
                rcases List.mem_append.mp hmem' with h' | h'
                · exact List.mem_append_left _ h'
                · exact List.mem_append_right _ (List.mem_append_left _ h')
              · have hmem' := hcl₂ x h i' hedge
                rw [List.append_assoc] at hmem'
                exact hmem'
            · intro i' hi' hlt
              rcases List.mem_cons.mp hi' with rfl | hmem
              · rcases List.mem_append.mp hmem₁ with h' | h'
                · exact List.mem_append_left _ h'
                · exact List.mem_append_right _ (List.mem_append_left _ h')
              · have hmem' := hin₂ i' hmem hlt
                rw [List.append_assoc] at hmem'
                exact hmem'
      have hfc₂ : sp.majorDim + 1 ≤ fuel + (out ++ [j]).length := by
        simp only [List.length_append, List.length_singleton]
        omega
      have hnd₂ : (out ++ [j]).Nodup := by
        simp [List.nodup_append, hnd, hjo]
      have hbd₂ : ∀ x ∈ out ++ [j], x < sp.majorDim := by
        intro x hx
        rcases List.mem_append.mp hx with h | h
        · exact hbd x h
        · obtain rfl := List.mem_singleton.mp h
          exact hj
      obtain ⟨l', he, hndl, hbl, hrel, hcll, hinl⟩ :=
        B (sp.lane j) (fun i hi => hm i (SparsityPattern.lane_subset_minors hi))
          (out ++ [j]) hnd₂ hbd₂ hfc₂
      refine ⟨j :: l', ?_, ?_, ?_, ?_, ?_, ?_⟩
      · show (if j ∈ out then out
          else (sp.lane j).foldl
            (fun acc i => if i < j then acc else sp.reach fuel i acc)
            (out ++ [j])) = _
        rw [if_neg hjo, he, List.append_assoc]
        rfl
      · rw [List.append_assoc] at hndl
        exact hndl
      · intro x hx
        rcases List.mem_cons.mp hx with rfl | h
        · exact hj
        · exact hbl x h
      · exact List.mem_append_right _ (List.mem_cons_self _ _)
      · intro x hx
        rcases List.mem_cons.mp hx with rfl | h
        · exact Relation.ReflTransGen.refl
        · obtain ⟨i, hi_lane, hlt, hr⟩ := hrel x h
          exact Relation.ReflTransGen.head ⟨hi_lane, hlt⟩ hr
      · intro x hx i hedge
        have hx' : i ∈ (out ++ [j]) ++ l' := by
          rcases List.mem_cons.mp hx with rfl | h
          · exact hinl i hedge.1 hedge.2
          · exact hcll x h i hedge
        rw [List.append_assoc] at hx'
        exact hx'

/-- Lifting `reach_spec` through the driver loop `for &i in b` of
`sparse_lower_triangular_solve`: the accumulated output is duplicate-
free, contains every root, consists of indices reachable from the roots,
and is closed under lower-triangular edges. -/
theorem SparsityPattern.solveFold_spec (sp : SparsityPattern)
    (hm : ∀ i ∈ sp.minorIndices, i < sp.majorDim) :
    ∀ b out : List ℕ, (∀ j ∈ b, j < sp.majorDim) → out.Nodup →
      (∀ x ∈ out, x < sp.majorDim) →
      ∃ l, b.foldl (fun o i => sp.reach (sp.majorDim + 1) i o) out = out ++ l ∧
        (out ++ l).Nodup ∧ (∀ x ∈ l, x < sp.majorDim) ∧
        (∀ j ∈ b, j ∈ out ++ l) ∧
        (∀ x ∈ l, ∃ j ∈ b, Relation.ReflTransGen sp.Edge j x) ∧
        (∀ x ∈ l, ∀ i, sp.Edge x i → i ∈ out ++ l) := by
  intro b
  induction b with
  | nil =>
    intro out _ hnd _
    exact ⟨[], by simp, by simpa using hnd, by simp, by simp, by simp, by simp⟩
  | cons j b' ih =>
    intro out hb hnd hbd
    obtain ⟨l₁, he₁, hnd₁, hb₁, hmem₁, hre₁, hcl₁⟩ :=
      sp.reach_spec hm (sp.majorDim + 1) j out (hb j (List.mem_cons_self _ _))
        hnd hbd (by omega)
    obtain ⟨l₂, he₂, hnd₂, hb₂, hin₂, hre₂, hcl₂⟩ :=
      ih (out ++ l₁) (fun a ha => hb a (List.mem_cons_of_mem _ ha)) hnd₁
        (fun x hx => (List.mem_append.mp hx).elim (hbd x) (hb₁ x))
    refine ⟨l₁ ++ l₂, ?_, ?_, ?_, ?_, ?_, ?_⟩
    · rw [List.foldl_cons, he₁, he₂, List.append_assoc]
    · rw [← List.append_assoc]
      exact hnd₂
    · intro x hx
      rcases List.mem_append.mp hx with h | h
      · exact hb₁ x h
      · exact hb₂ x h
    · intro a ha
      rcases List.mem_cons.mp ha with rfl | hmem
      · rcases List.mem_append.mp hmem₁ with h' | h'
        · exact List.mem_append_left _ h'
        · exact List.mem_append_right _ (List.mem_append_left _ h')
      · have hmem' := hin₂ a hmem
        rw [List.append_assoc] at hmem'
        exact hmem'
    · intro x hx
      rcases List.mem_append.mp hx with h | h
      · exact ⟨j, List.mem_cons_self _ _, hre₁ x h⟩
      · obtain ⟨j', hj', hr⟩ := hre₂ x h
        exact ⟨j', List.mem_cons_of_mem _ hj', hr⟩
    · intro x hx i hedge
      rcases List.mem_append.mp hx with h | h
      · have hmem' := hcl₁ x h i hedge
        rcases List.mem_append.mp hmem' with h' | h'
        · exact List.mem_append_left _ h'
        · exact List.mem_append_right _ (List.mem_append_left _ h')
      · have hmem' := hcl₂ x h i hedge
        rw [List.append_assoc] at hmem'
        exact hmem'

/-- C3 (amended): for every pattern whose minor indices are all below
`major_dim` and every start set `b` of majors below `major_dim`,
`sparse_lower_triangular_solve(b, out)` fills `out` with a duplicate-free
list that equals, as a set, exactly the closure of `b` under the edges
`j → i` with `i ∈ lane(j)`, `i ≥ j`.  (The further claim that the output
is topologically ordered is refuted by `c3_topo_cex`: the preorder DFS
emission order can place an edge target before its source.) -/
theorem c3_reach_closure (sp : SparsityPattern) (b : List ℕ)
    (hm : ∀ i ∈ sp.minorIndices, i < sp.majorDim)
    (hb : ∀ j ∈ b, j < sp.majorDim) :
    (sp.sparseLowerTriangularSolve b).Nodup ∧
    ∀ x, x ∈ sp.sparseLowerTriangularSolve b ↔ sp.ReachableFrom b x := by
  obtain ⟨l, he, hnd, _, hin, hre, hcl⟩ :=
    sp.solveFold_spec hm b [] hb (by simp) (by simp)
  have hres : sp.sparseLowerTriangularSolve b = l := by
    show b.foldl (fun o i => sp.reach (sp.majorDim + 1) i o) [] = l
    rw [he]
    rfl
  rw [hres]
  simp only [List.nil_append] at hnd hin hcl
  refine ⟨hnd, fun x => ⟨fun hx => hre x hx, ?_⟩⟩
  rintro ⟨r, hr, hrt⟩
  induction hrt with
  | refl => exact hin r hr
  | tail _ hedge ihx => exact hcl _ ihx _ hedge

/-- Witness for C3 (amended): on the pattern with lanes
`lane(0) = [1]`, `lane(1) = []` over two majors, starting from `b = [0]`,
the hypotheses hold, the output `[0, 1]` is duplicate-free and is exactly
the closure of `{0}`. -/
theorem c3_reach_closure_witness :
    (∀ i ∈ (⟨[0, 1, 1], [1], 2⟩ : SparsityPattern).minorIndices,
        i < (⟨[0, 1, 1], [1], 2⟩ : SparsityPattern).majorDim) ∧
    (∀ j ∈ [0], j < (⟨[0, 1, 1], [1], 2⟩ : SparsityPattern).majorDim) ∧
    ((SparsityPattern.sparseLowerTriangularSolve ⟨[0, 1, 1], [1], 2⟩ [0]).Nodup ∧
      ∀ x, x ∈ SparsityPattern.sparseLowerTriangularSolve ⟨[0, 1, 1], [1], 2⟩ [0] ↔
        SparsityPattern.ReachableFrom ⟨[0, 1, 1], [1], 2⟩ [0] x) :=
  ⟨by decide, by decide, c3_reach_closure ⟨[0, 1, 1], [1], 2⟩ [0] (by decide) (by decide)⟩

/-- C3 counterexample (to the topological-order half of the claim): on
the pattern with lanes `lane(0) = [1, 2]`, `lane(1) = [3]`,
`lane(2) = [3]`, `lane(3) = []` and start set `b = [0]`, the code outputs
`[0, 1, 3, 2]`; the edge `2 → 3` has both endpoints in the output, yet
`3` appears strictly before `2`, so the source `2` does not precede its
target `3`. -/
theorem c3_topo_cex :
    SparsityPattern.sparseLowerTriangularSolve ⟨[0, 2, 3, 4, 4], [1, 2, 3, 3], 4⟩ [0]
        = [0, 1, 3, 2] ∧
    SparsityPattern.Edge ⟨[0, 2, 3, 4, 4], [1, 2, 3, 3], 4⟩ 2 3 ∧
    [0, 1, 3, 2].indexOf 3 < [0, 1, 3, 2].indexOf 2 := by
  refine ⟨by decide, ⟨by decide, by decide⟩, by decide⟩

/-- `dropLast ++ [getLastD]` reassembles any nonempty list (generic). -/
theorem list_dropLast_append_getLastD_gen {α : Type} (l : List α) (d : α)
    (h : l ≠ []) : l.dropLast ++ [l.getLastD d] = l := by
  rw [List.getLastD_eq_getLast?, List.getLast?_eq_getLast l h]
  exact List.dropLast_append_getLast h

/-- `getLastD` of a nonempty list is a member (generic). -/
theorem list_getLastD_mem_gen {α : Type} (l : List α) (d : α) (h : l ≠ []) :
    l.getLastD d ∈ l := by
  rw [List.getLastD_eq_getLast?, List.getLast?_eq_getLast l h]
  exact List.getLast_mem h

/-- A forward bubble pass emits a permutation: `fwdGo x l` permutes `x :: l`. -/
theorem CsMatrix.fwdGo_perm : ∀ (l : List (ℕ × F)) (x : ℕ × F),
    (CsMatrix.fwdGo x l).Perm (x :: l) := by
  intro l
  induction l with
  | nil => intro x; exact List.Perm.refl _
  | cons y rest ih =>
    intro x
    simp only [CsMatrix.fwdGo]
    by_cases h : y.1 < x.1
    · rw [if_pos h]
      exact ((ih x).cons y).trans (List.Perm.swap x y rest)
    · rw [if_neg h]
      exact (ih y).cons x

/-- `fwdPass` permutes its input. -/
theorem CsMatrix.fwdPass_perm : ∀ l : List (ℕ × F), (CsMatrix.fwdPass l).Perm l := by
  intro l
  cases l with
  | nil => exact List.Perm.refl _
  | cons x rest => exact CsMatrix.fwdGo_perm rest x

/-- `revPass` permutes its input. -/
theorem CsMatrix.revPass_perm : ∀ l : List (ℕ × F), (CsMatrix.revPass l).Perm l := by
  intro l
  induction l with
  | nil => exact List.Perm.refl _
  | cons c rest ih =>
    simp only [CsMatrix.revPass]
    cases hr : CsMatrix.revPass rest with
    | nil =>
      obtain rfl : rest = [] := ((hr ▸ ih).symm).eq_nil
      exact List.Perm.refl _
    | cons y r =>
      have h2 : (y :: r).Perm rest := hr ▸ ih
      show (if y.1 < c.1 then y :: c :: r else c :: y :: r).Perm (c :: rest)
      by_cases h : y.1 < c.1
      · rw [if_pos h]
        exact ((List.Perm.swap c y r).trans (h2.cons c))
      · rw [if_neg h]
        exact h2.cons c

/-- The per-lane re-sort permutes the lane. -/
theorem CsMatrix.passSegment_perm (l : List (ℕ × F)) :
    (CsMatrix.passSegment l).Perm l :=
  (CsMatrix.revPass_perm _).trans (CsMatrix.fwdPass_perm l)

/-- A forward pass leaves a sorted carry/tail untouched. -/
theorem CsMatrix.fwdGo_sorted : ∀ (l : List (ℕ × F)) (x : ℕ × F),
    List.Chain' (fun p q : ℕ × F => p.1 < q.1) (x :: l) →
    CsMatrix.fwdGo x l = x :: l := by
  intro l
  induction l with
  | nil => intro x _; rfl
  | cons y rest ih =>
    intro x hch
    have hxy : x.1 < y.1 := (List.chain'_cons.mp hch).1
    simp only [CsMatrix.fwdGo]
    rw [if_neg (by omega), ih y (List.chain'_cons.mp hch).2]

/-- Carrying through a strictly ascending prefix: each comparison hands
the carry to the next element, shifting the prefix left by one slot and
finally carrying its last element. -/
theorem CsMatrix.fwdGo_chain : ∀ (u : List (ℕ × F)) (x : ℕ × F) (l : List (ℕ × F)),
    List.Chain' (fun p q : ℕ × F => p.1 < q.1) (x :: u) →
    CsMatrix.fwdGo x (u ++ l)
      = (x :: u).dropLast ++ CsMatrix.fwdGo ((x :: u).getLastD x) l := by
  intro u
  induction u with
  | nil => intro x l _; simp [List.getLastD]
  | cons y u' ih =>
    intro x l hch
    have hxy : x.1 < y.1 := (List.chain'_cons.mp hch).1
    simp only [List.cons_append, CsMatrix.fwdGo, List.append_eq]
    rw [if_neg (by omega), ih y l (List.chain'_cons.mp hch).2]
    simp [List.getLastD_cons]
    rw [List.getLast?_eq_getLast (y :: u') (by simp)]
    rfl

/-- Elements smaller than the carry are emitted unchanged. -/
theorem CsMatrix.fwdGo_small : ∀ (u : List (ℕ × F)) (x : ℕ × F) (l : List (ℕ × F)),
    (∀ y ∈ u, y.1 < x.1) →
    CsMatrix.fwdGo x (u ++ l) = u ++ CsMatrix.fwdGo x l := by
  intro u
  induction u with
  | nil => intro x l _; rfl
  | cons y u' ih =>
    intro x l h
    simp only [List.cons_append, CsMatrix.fwdGo, List.append_eq]
    rw [if_pos (h y (List.mem_cons_self _ _)),
      ih x l (fun z hz => h z (List.mem_cons_of_mem _ hz))]

/-- `Chain'` on strictly ascending keys coincides with `Pairwise` (the
key order is transitive). -/
theorem chainPairsIffPairwise (l : List (ℕ × F)) :
    List.Chain' (fun p q : ℕ × F => p.1 < q.1) l ↔
    List.Pairwise (fun p q : ℕ × F => p.1 < q.1) l :=
  @List.chain'_iff_pairwise (ℕ × F) (fun p q : ℕ × F => p.1 < q.1)
    ⟨fun _ _ _ h1 h2 => Nat.lt_trans h1 h2⟩ l

/-- A forward pass over a sorted list inserts the carry at its place. -/
theorem CsMatrix.fwdGo_insert : ∀ (t : List (ℕ × F)) (x : ℕ × F),
    List.Chain' (fun p q : ℕ × F => p.1 < q.1) t →
    ∃ t₁ t₂, t = t₁ ++ t₂ ∧ (∀ y ∈ t₁, y.1 < x.1) ∧ (∀ y ∈ t₂, x.1 ≤ y.1) ∧
      CsMatrix.fwdGo x t = t₁ ++ x :: t₂ := by
  intro t
  induction t with
  | nil => intro x _; exact ⟨[], [], rfl, by simp, by simp, rfl⟩
  | cons y t' ih =>
    intro x hch
    by_cases h : y.1 < x.1
    · obtain ⟨t₁, t₂, heq, h1, h2, he⟩ := ih x hch.tail
      refine ⟨y :: t₁, t₂, by rw [List.cons_append, ← heq], ?_, h2, ?_⟩
      · intro z hz
        rcases List.mem_cons.mp hz with rfl | hz'
        · exact h
        · exact h1 z hz'
      · simp only [CsMatrix.fwdGo]
        rw [if_pos h, he, List.cons_append]
    · have hpw : List.Pairwise (fun p q : ℕ × F => p.1 < q.1) (y :: t') :=
        (chainPairsIffPairwise _).mp hch
      refine ⟨[], y :: t', rfl, by simp, ?_, ?_⟩
      · intro z hz
        rcases List.mem_cons.mp hz with rfl | hz'
        · omega
        · have := (List.pairwise_cons.mp hpw).1 z hz'
          omega
      · simp only [CsMatrix.fwdGo]
        rw [if_neg h, CsMatrix.fwdGo_sorted t' y hch]
        rfl

/-- One-step unfolding of `revPass` on a cons cell. -/
theorem CsMatrix.revPass_cons (c : ℕ × F) (rest : List (ℕ × F)) :
    CsMatrix.revPass (c :: rest) =
      match CsMatrix.revPass rest with
      | [] => [c]
      | y :: r => if y.1 < c.1 then y :: c :: r else c :: y :: r := rfl

/-- A reverse bubble pass leaves a sorted list untouched. -/
theorem CsMatrix.revPass_sorted : ∀ l : List (ℕ × F),
    List.Chain' (fun p q : ℕ × F => p.1 < q.1) l →
    CsMatrix.revPass l = l := by
  intro l
  induction l with
  | nil => intro _; rfl
  | cons c rest ih =>
    intro hch
    have h1 : CsMatrix.revPass rest = rest := ih hch.tail
    cases rest with
    | nil => rfl
    | cons y r =>
      have hcy : c.1 < y.1 := (List.chain'_cons.mp hch).1
      rw [CsMatrix.revPass_cons, h1]
      show (if y.1 < c.1 then y :: c :: r else c :: y :: r) = c :: y :: r
      rw [if_neg (by omega)]

/-- A reverse pass carries the small head of its processed suffix left
through any block of larger elements. -/
theorem CsMatrix.revPass_carry : ∀ (mid l t : List (ℕ × F)) (A : ℕ × F),
    (∀ y ∈ mid, A.1 < y.1) → CsMatrix.revPass l = A :: t →
    CsMatrix.revPass (mid ++ l) = A :: (mid ++ t) := by
  intro mid
  induction mid with
  | nil => intro l t A _ hl; simpa using hl
  | cons m mid' ih =>
    intro l t A hm hl
    rw [List.cons_append, CsMatrix.revPass_cons,
      ih l t A (fun y hy => hm y (List.mem_cons_of_mem _ hy)) hl]
    show (if A.1 < m.1 then A :: m :: (mid' ++ t) else m :: A :: (mid' ++ t))
        = A :: ((m :: mid') ++ t)
    rw [if_pos (hm m (List.mem_cons_self _ _)), List.cons_append]

/-- A reverse pass leaves a sorted prefix in place when the processed
suffix starts above the prefix. -/
theorem CsMatrix.revPass_prefix : ∀ (u l t : List (ℕ × F)) (A : ℕ × F),
    List.Chain' (fun p q : ℕ × F => p.1 < q.1) u → (∀ y ∈ u, y.1 < A.1) →
    CsMatrix.revPass l = A :: t →
    CsMatrix.revPass (u ++ l) = u ++ A :: t := by
  intro u
  induction u with
  | nil => intro l t A _ _ hl; simpa using hl
  | cons x u' ih =>
    intro l t A hch hu hl
    rw [List.cons_append, CsMatrix.revPass_cons,
      ih l t A hch.tail (fun y hy => hu y (List.mem_cons_of_mem _ hy)) hl]
    cases u' with
    | nil =>
      have hxA := hu x (List.mem_cons_self _ _)
      show (if A.1 < x.1 then A :: x :: t else x :: A :: t) = [x] ++ A :: t
      rw [if_neg (by omega)]
      rfl
    | cons z u'' =>
      have hxz := (List.chain'_cons.mp hch).1
      show (if z.1 < x.1 then z :: x :: (u'' ++ A :: t) else x :: z :: (u'' ++ A :: t))
          = (x :: z :: u'') ++ A :: t
      rw [if_neg (by omega)]
      rfl

/-- `Chain'` of a cons from a head bound over the whole tail. -/
theorem chain_cons_of_lt_all (x : ℕ × F) (l : List (ℕ × F))
    (h : ∀ y ∈ l, x.1 < y.1)
    (hc : List.Chain' (fun p q : ℕ × F => p.1 < q.1) l) :
    List.Chain' (fun p q : ℕ × F => p.1 < q.1) (x :: l) := by
  cases l with
  | nil => simp
  | cons y r => exact List.chain'_cons.mpr ⟨h y (List.mem_cons_self _ _), hc⟩

/-- `Chain'` of an append from chains of the parts and a cross bound. -/
theorem chain_append_of_lt (u v : List (ℕ × F))
    (hu : List.Chain' (fun p q : ℕ × F => p.1 < q.1) u)
    (hv : List.Chain' (fun p q : ℕ × F => p.1 < q.1) v)
    (hcross : ∀ y ∈ u, ∀ z ∈ v, y.1 < z.1) :
    List.Chain' (fun p q : ℕ × F => p.1 < q.1) (u ++ v) := by
  refine List.chain'_append.mpr ⟨hu, hv, ?_⟩
  intro x hx y hy
  exact hcross x (List.mem_of_getLast?_eq_some hx) y (List.mem_of_mem_head? hy)

/-- The reverse pass inserts a displaced small element back into place:
prefix `t₁` below it stays, block `t₂` above it is jumped over, the
sorted suffix `s` above it stays. -/
theorem CsMatrix.revPass_insert (t₁ t₂ s : List (ℕ × F)) (A : ℕ × F)
    (h₁c : List.Chain' (fun p q : ℕ × F => p.1 < q.1) t₁)
    (h₁ : ∀ y ∈ t₁, y.1 < A.1) (h₂ : ∀ y ∈ t₂, A.1 < y.1)
    (hsc : List.Chain' (fun p q : ℕ × F => p.1 < q.1) s)
    (hs : ∀ y ∈ s, A.1 < y.1) :
    CsMatrix.revPass (t₁ ++ t₂ ++ A :: s) = t₁ ++ A :: (t₂ ++ s) := by
  have h0 : CsMatrix.revPass (A :: s) = A :: s :=
    CsMatrix.revPass_sorted _ (chain_cons_of_lt_all A s hs hsc)
  have h1 : CsMatrix.revPass (t₂ ++ A :: s) = A :: (t₂ ++ s) :=
    CsMatrix.revPass_carry t₂ _ s A h₂ h0
  rw [List.append_assoc]
  exact CsMatrix.revPass_prefix t₁ _ _ A h₁c h₁ h1

/-- The forward pass hands its carry through a fully smaller sorted
prefix unchanged. -/
theorem CsMatrix.fwdPass_carry (u : List (ℕ × F)) (z : ℕ × F) (l : List (ℕ × F))
    (hc : List.Chain' (fun p q : ℕ × F => p.1 < q.1) u)
    (hu : ∀ y ∈ u, y.1 < z.1) :
    CsMatrix.fwdPass (u ++ z :: l) = u ++ CsMatrix.fwdGo z l := by
  cases u with
  | nil => rfl
  | cons x u' =>
    show CsMatrix.fwdGo x (u' ++ z :: l) = _
    rw [CsMatrix.fwdGo_chain u' x (z :: l) hc]
    have hmem : (x :: u').getLastD x ∈ x :: u' :=
      list_getLastD_mem_gen (x :: u') x (by simp)
    have hlt : ((x :: u').getLastD x).1 < z.1 := hu _ hmem
    rw [show CsMatrix.fwdGo ((x :: u').getLastD x) (z :: l)
        = (x :: u').getLastD x :: CsMatrix.fwdGo z l from by
      simp only [CsMatrix.fwdGo]
      rw [if_neg (by omega)]]
    rw [show (x :: u').dropLast ++ ((x :: u').getLastD x :: CsMatrix.fwdGo z l)
        = ((x :: u').dropLast ++ [(x :: u').getLastD x]) ++ CsMatrix.fwdGo z l from by
      simp]
    rw [list_dropLast_append_getLastD_gen (x :: u') x (by simp)]

/-- The per-lane re-sort fixes an already sorted lane. -/
theorem CsMatrix.passSegment_sorted_id (l : List (ℕ × F))
    (h : List.Chain' (fun p q : ℕ × F => p.1 < q.1) l) :
    CsMatrix.passSegment l = l := by
  cases l with
  | nil => rfl
  | cons x rest =>
    show CsMatrix.revPass (CsMatrix.fwdGo x rest) = x :: rest
    rw [CsMatrix.fwdGo_sorted rest x h]
    exact CsMatrix.revPass_sorted _ h

/-- Two key-sorted lists that are permutations of each other are equal
(strict orders admit at most one sorted arrangement). -/
theorem sorted_key_unique (l₁ l₂ : List (ℕ × F)) (hp : l₁.Perm l₂)
    (h₁ : List.Chain' (fun p q : ℕ × F => p.1 < q.1) l₁)
    (h₂ : List.Chain' (fun p q : ℕ × F => p.1 < q.1) l₂) : l₁ = l₂ :=
  @List.eq_of_perm_of_sorted (ℕ × F) (fun p q : ℕ × F => p.1 < q.1)
    ⟨fun _ _ h1 h2 => absurd h2 (Nat.lt_asymm h1)⟩ l₁ l₂ hp
    ((chainPairsIffPairwise l₁).mp h₁) ((chainPairsIffPairwise l₂).mp h₂)

/-- A sorted list avoiding the key `k` splits into the part strictly
below `k` and the part strictly above. -/
theorem sorted_split_ne : ∀ (t : List (ℕ × F)) (k : ℕ),
    List.Chain' (fun p q : ℕ × F => p.1 < q.1) t → (∀ y ∈ t, y.1 ≠ k) →
    ∃ t₁ t₂, t = t₁ ++ t₂ ∧ (∀ y ∈ t₁, y.1 < k) ∧ (∀ y ∈ t₂, k < y.1) := by
  intro t
  induction t with
  | nil => intro k _ _; exact ⟨[], [], rfl, by simp, by simp⟩
  | cons y t' ih =>
    intro k hch hne
    by_cases h : y.1 < k
    · obtain ⟨t₁, t₂, heq, h1, h2⟩ :=
        ih k hch.tail (fun z hz => hne z (List.mem_cons_of_mem _ hz))
      refine ⟨y :: t₁, t₂, by rw [List.cons_append, ← heq], ?_, h2⟩
      intro z hz
      rcases List.mem_cons.mp hz with rfl | hz'
      · exact h
      · exact h1 z hz'
    · have hyk : k < y.1 := by
        have := hne y (List.mem_cons_self _ _)
        omega
      have hpw := (chainPairsIffPairwise _).mp hch
      refine ⟨[], y :: t', rfl, by simp, ?_⟩
      intro z hz
      rcases List.mem_cons.mp hz with rfl | hz'
      · exact hyk
      · have := (List.pairwise_cons.mp hpw).1 z hz'
        omega

/-- A sorted list containing the key `k` splits around its unique
occurrence, with strictly smaller keys before and larger after. -/
theorem sorted_split_mem (l : List (ℕ × F)) (k : ℕ)
    (hch : List.Chain' (fun p q : ℕ × F => p.1 < q.1) l)
    (hk : k ∈ l.map Prod.fst) :
    ∃ u w vk, l = u ++ (k, vk) :: w ∧ (∀ y ∈ u, y.1 < k) ∧ (∀ y ∈ w, k < y.1) := by
  obtain ⟨p, hp, hpk⟩ := List.mem_map.mp hk
  obtain ⟨u, w, heq⟩ := List.append_of_mem hp
  have hpw := (chainPairsIffPairwise _).mp (heq ▸ hch)
  refine ⟨u, w, p.2, ?_, ?_, ?_⟩
  · rw [heq, ← hpk, Prod.mk.eta]
  · intro y hy
    have := (List.pairwise_append.mp hpw).2.2 y hy p (List.mem_cons_self _ _)
    omega
  · intro y hy
    have := (List.pairwise_cons.mp (List.pairwise_append.mp hpw).2.1).1 y hy
    omega

/-- `relabel` is an involution. -/
theorem CsMatrix.relabel_invol (a b x : ℕ) :
    CsMatrix.relabel a b (CsMatrix.relabel a b x) = x := by
  unfold CsMatrix.relabel
  split_ifs <;> omega

/-- `relabel` fixes values other than the two swapped labels. -/
theorem CsMatrix.relabel_eq_self (a b x : ℕ) (hxa : x ≠ a) (hxb : x ≠ b) :
    CsMatrix.relabel a b x = x := by
  unfold CsMatrix.relabel
  rw [if_neg hxa, if_neg hxb]

/-- `relabel` is symmetric in the two labels. -/
theorem CsMatrix.relabel_comm (a b x : ℕ) :
    CsMatrix.relabel a b x = CsMatrix.relabel b a x := by
  unfold CsMatrix.relabel
  split_ifs <;> omega

/-- Relabelling a block avoiding both labels is the identity. -/
theorem map_relabel_id (a b : ℕ) (s : List (ℕ × F))
    (h : ∀ y ∈ s, y.1 ≠ a ∧ y.1 ≠ b) :
    s.map (Prod.map (CsMatrix.relabel a b) id) = s := by
  induction s with
  | nil => rfl
  | cons y s' ih =>
    rw [List.map_cons, ih (fun z hz => h z (List.mem_cons_of_mem _ hz))]
    have hy := h y (List.mem_cons_self _ _)
    have hhead : Prod.map (CsMatrix.relabel a b) id y = y := by
      show (CsMatrix.relabel a b y.1, y.2) = y
      rw [CsMatrix.relabel_eq_self a b y.1 hy.1 hy.2]
    rw [hhead]

/-- Relabelling twice is the identity on pair lists. -/
theorem map_relabel_invol (a b : ℕ) (s : List (ℕ × F)) :
    (s.map (Prod.map (CsMatrix.relabel a b) id)).map
      (Prod.map (CsMatrix.relabel a b) id) = s := by
  rw [List.map_map]
  have h : ∀ y ∈ s,
      (Prod.map (CsMatrix.relabel a b) id ∘ Prod.map (CsMatrix.relabel a b) id) y
        = id y := by
    intro y _
    show (CsMatrix.relabel a b (CsMatrix.relabel a b y.1), y.2) = y
    rw [CsMatrix.relabel_invol]
  rw [List.map_congr_left h, List.map_id]

/-- Per-lane core of `swap_minor` (labels in order `a < b`): relabelling
a strictly-sorted lane displaces at most the two swapped keys, and one
forward followed by one reverse bubble pass restores strict sorting. -/
theorem passSegment_relabel_sorted_lt (a b : ℕ) (hab : a < b) :
    ∀ l : List (ℕ × F), List.Chain' (fun p q : ℕ × F => p.1 < q.1) l →
    List.Chain' (fun p q : ℕ × F => p.1 < q.1)
      (CsMatrix.passSegment (l.map (Prod.map (CsMatrix.relabel a b) id))) := by
  intro l hl
  have hRLa : ∀ va : F, Prod.map (CsMatrix.relabel a b) id ((a : ℕ), va) = ((b : ℕ), va) := by
    intro va
    show (CsMatrix.relabel a b a, va) = (b, va)
    rw [show CsMatrix.relabel a b a = b from by
      unfold CsMatrix.relabel; rw [if_pos rfl]]
  have hRLb : ∀ vb : F, Prod.map (CsMatrix.relabel a b) id ((b : ℕ), vb) = ((a : ℕ), vb) := by
    intro vb
    show (CsMatrix.relabel a b b, vb) = (a, vb)
    rw [show CsMatrix.relabel a b b = a from by
      unfold CsMatrix.relabel; rw [if_neg (by omega), if_pos rfl]]
  by_cases ha : a ∈ l.map Prod.fst
  · obtain ⟨u, v, va, heq, hu, hv⟩ := sorted_split_mem l a hl ha
    have hch : List.Chain' (fun p q : ℕ × F => p.1 < q.1) (u ++ (a, va) :: v) :=
      heq ▸ hl
    have hchu := (List.chain'_append.mp hch).1
    have hchv := (List.chain'_append.mp hch).2.1.tail
    have hmapu : u.map (Prod.map (CsMatrix.relabel a b) id) = u :=
      map_relabel_id a b u (fun y hy => ⟨by have := hu y hy; omega,
        by have := hu y hy; omega⟩)
    by_cases hb : b ∈ l.map Prod.fst
    · -- both labels occur: the two displaced keys cross over
      have hbv : b ∈ v.map Prod.fst := by
        obtain ⟨p, hp, hpk⟩ := List.mem_map.mp hb
        have hp' : p ∈ u ++ (a, va) :: v := heq ▸ hp
        rcases List.mem_append.mp hp' with h' | h'
        · have := hu p h'
          omega
        · rcases List.mem_cons.mp h' with rfl | h''
          · simp at hpk
            omega
          · exact List.mem_map.mpr ⟨p, h'', hpk⟩
      obtain ⟨mid, w, vb, heqv, hmidb, hwb⟩ := sorted_split_mem v b hchv hbv
      have hchv' : List.Chain' (fun p q : ℕ × F => p.1 < q.1)
          (mid ++ (b, vb) :: w) := heqv ▸ hchv
      have hchmid := (List.chain'_append.mp hchv').1
      have hchw := (List.chain'_append.mp hchv').2.1.tail
      have hmida : ∀ y ∈ mid, a < y.1 := fun y hy =>
        hv y (by rw [heqv]; exact List.mem_append_left _ hy)
      have hwa : ∀ y ∈ w, a < y.1 := fun y hy => by
        have := hwb y hy
        omega
      have hmapmid : mid.map (Prod.map (CsMatrix.relabel a b) id) = mid :=
        map_relabel_id a b mid (fun y hy => ⟨by have := hmida y hy; omega,
          by have := hmidb y hy; omega⟩)
      have hmapw : w.map (Prod.map (CsMatrix.relabel a b) id) = w :=
        map_relabel_id a b w (fun y hy => ⟨by have := hwb y hy; omega,
          by have := hwb y hy; omega⟩)
      have hmap : l.map (Prod.map (CsMatrix.relabel a b) id)
          = u ++ ((b, va) :: (mid ++ ((a, vb) :: w))) := by
        rw [heq, heqv]
        simp only [List.map_append, List.map_cons]
        rw [hmapu, hmapmid, hmapw, hRLa, hRLb]
      have hs : List.Chain' (fun p q : ℕ × F => p.1 < q.1) ((b, va) :: w) :=
        chain_cons_of_lt_all (b, va) w hwb hchw
      have hfwd : CsMatrix.fwdPass (u ++ ((b, va) :: (mid ++ ((a, vb) :: w))))
          = u ++ (mid ++ ((a, vb) :: ((b, va) :: w))) := by
        rw [CsMatrix.fwdPass_carry u (b, va) (mid ++ ((a, vb) :: w)) hchu
          (fun y hy => by have := hu y hy; show y.1 < b; omega)]
        congr 1
        rw [CsMatrix.fwdGo_small mid (b, va) ((a, vb) :: w)
          (fun y hy => hmidb y hy)]
        congr 1
        show CsMatrix.fwdGo (b, va) ((a, vb) :: w) = (a, vb) :: ((b, va) :: w)
        simp only [CsMatrix.fwdGo]
        rw [if_pos (show ((a : ℕ), vb).1 < ((b : ℕ), va).1 from hab)]
        rw [CsMatrix.fwdGo_sorted w (b, va) hs]
      have hrev : CsMatrix.revPass (u ++ (mid ++ ((a, vb) :: ((b, va) :: w))))
          = u ++ ((a, vb) :: (mid ++ ((b, va) :: w))) := by
        rw [← List.append_assoc]
        exact CsMatrix.revPass_insert u mid ((b, va) :: w) (a, vb) hchu hu
          hmida hs (fun y hy => by
            rcases List.mem_cons.mp hy with rfl | hy'
            · exact hab
            · exact hwa y hy')
      have hfinal : List.Chain' (fun p q : ℕ × F => p.1 < q.1)
          (u ++ ((a, vb) :: (mid ++ ((b, va) :: w)))) := by
        refine chain_append_of_lt u _ hchu ?_ ?_
        · refine chain_cons_of_lt_all _ _ ?_ ?_
          · intro y hy
            rcases List.mem_append.mp hy with h' | h'
            · exact hmida y h'
            · rcases List.mem_cons.mp h' with rfl | h''
              · exact hab
              · exact hwa y h''
          · refine chain_append_of_lt mid _ hchmid hs ?_
            intro y hy z hz
            rcases List.mem_cons.mp hz with rfl | hz'
            · exact hmidb y hy
            · have := hmidb y hy
              have := hwb z hz'
              omega
        · intro y hy z hz
          have hya := hu y hy
          rcases List.mem_cons.mp hz with rfl | hz'
          · exact hya
          · rcases List.mem_append.mp hz' with h' | h'
            · have := hmida z h'
              omega
            · rcases List.mem_cons.mp h' with rfl | h''
              · show y.1 < b
                omega
              · have := hwa z h''
                omega
      show List.Chain' (fun p q : ℕ × F => p.1 < q.1)
        (CsMatrix.revPass (CsMatrix.fwdPass
          (l.map (Prod.map (CsMatrix.relabel a b) id))))
      rw [hmap, hfwd, hrev]
      exact hfinal
    · -- only `a` occurs: its slot takes key `b` and drifts right
      have hneb : ∀ y ∈ v, y.1 ≠ b := by
        intro y hy hyb
        exact hb (List.mem_map.mpr ⟨y, by rw [heq]; simp [hy], hyb⟩)
      obtain ⟨v₁, v₂, heqv, hv₁, hv₂⟩ := sorted_split_ne v b hchv hneb
      have hchv' : List.Chain' (fun p q : ℕ × F => p.1 < q.1) (v₁ ++ v₂) :=
        heqv ▸ hchv
      have hchv₁ := (List.chain'_append.mp hchv').1
      have hchv₂ := (List.chain'_append.mp hchv').2.1
      have hv₁a : ∀ y ∈ v₁, a < y.1 := fun y hy =>
        hv y (by rw [heqv]; exact List.mem_append_left _ hy)
      have hmapv₁ : v₁.map (Prod.map (CsMatrix.relabel a b) id) = v₁ :=
        map_relabel_id a b v₁ (fun y hy => ⟨by have := hv₁a y hy; omega,
          by have := hv₁ y hy; omega⟩)
      have hmapv₂ : v₂.map (Prod.map (CsMatrix.relabel a b) id) = v₂ :=
        map_relabel_id a b v₂ (fun y hy => ⟨by have := hv₂ y hy; omega,
          by have := hv₂ y hy; omega⟩)
      have hmap : l.map (Prod.map (CsMatrix.relabel a b) id)
          = u ++ ((b, va) :: (v₁ ++ v₂)) := by
        rw [heq, heqv]
        simp only [List.map_append, List.map_cons]
        rw [hmapu, hmapv₁, hmapv₂, hRLa]
      have hfinal : List.Chain' (fun p q : ℕ × F => p.1 < q.1)
          (u ++ (v₁ ++ ((b, va) :: v₂))) := by
        refine chain_append_of_lt u _ hchu ?_ ?_
        · refine chain_append_of_lt v₁ _ hchv₁
            (chain_cons_of_lt_all _ _ hv₂ hchv₂) ?_
          intro y hy z hz
          rcases List.mem_cons.mp hz with rfl | hz'
          · exact hv₁ y hy
          · have := hv₁ y hy
            have := hv₂ z hz'
            omega
        · intro y hy z hz
          have hya := hu y hy
          rcases List.mem_append.mp hz with h' | h'
          · have := hv₁a z h'
            omega
          · rcases List.mem_cons.mp h' with rfl | h''
            · show y.1 < b
              omega
            · have := hv₂ z h''
              omega
      have hfwd : CsMatrix.fwdPass (u ++ ((b, va) :: (v₁ ++ v₂)))
          = u ++ (v₁ ++ ((b, va) :: v₂)) := by
        rw [CsMatrix.fwdPass_carry u (b, va) (v₁ ++ v₂) hchu
          (fun y hy => by have := hu y hy; show y.1 < b; omega)]
        congr 1
        rw [CsMatrix.fwdGo_small v₁ (b, va) v₂ (fun y hy => hv₁ y hy)]
        congr 1
        exact CsMatrix.fwdGo_sorted v₂ (b, va)
          (chain_cons_of_lt_all _ _ hv₂ hchv₂)
      show List.Chain' (fun p q : ℕ × F => p.1 < q.1)
        (CsMatrix.revPass (CsMatrix.fwdPass
          (l.map (Prod.map (CsMatrix.relabel a b) id))))
      rw [hmap, hfwd, CsMatrix.revPass_sorted _ hfinal]
      exact hfinal
  · by_cases hb : b ∈ l.map Prod.fst
    · -- only `b` occurs: its slot takes key `a` and drifts left
      obtain ⟨u, w, vb, heq, hu, hw⟩ := sorted_split_mem l b hl hb
      have hch : List.Chain' (fun p q : ℕ × F => p.1 < q.1) (u ++ (b, vb) :: w) :=
        heq ▸ hl
      have hchu := (List.chain'_append.mp hch).1
      have hchw := (List.chain'_append.mp hch).2.1.tail
      have hwa : ∀ y ∈ w, a < y.1 := fun y hy => by
        have := hw y hy
        omega
      have hnea : ∀ y ∈ u, y.1 ≠ a := by
        intro y hy hya
        exact ha (List.mem_map.mpr ⟨y, by rw [heq]; simp [hy], hya⟩)
      obtain ⟨u₁, u₂, hequ, hu₁, hu₂⟩ := sorted_split_ne u a hchu hnea
      have hchu' : List.Chain' (fun p q : ℕ × F => p.1 < q.1) (u₁ ++ u₂) :=
        hequ ▸ hchu
      have hchu₁ := (List.chain'_append.mp hchu').1
      have hchu₂ := (List.chain'_append.mp hchu').2.1
      have hu₂b : ∀ y ∈ u₂, y.1 < b := fun y hy =>
        hu y (by rw [hequ]; exact List.mem_append_right _ hy)
      have hmapu₁ : u₁.map (Prod.map (CsMatrix.relabel a b) id) = u₁ :=
        map_relabel_id a b u₁ (fun y hy => ⟨by have := hu₁ y hy; omega,
          by have h1 := hu₁ y hy; omega⟩)
      have hmapu₂ : u₂.map (Prod.map (CsMatrix.relabel a b) id) = u₂ :=
        map_relabel_id a b u₂ (fun y hy => ⟨by have := hu₂ y hy; omega,
          by have := hu₂b y hy; omega⟩)
      have hmapw : w.map (Prod.map (CsMatrix.relabel a b) id) = w :=
        map_relabel_id a b w (fun y hy => ⟨by have := hw y hy; omega,
          by have := hw y hy; omega⟩)
      have hmap : l.map (Prod.map (CsMatrix.relabel a b) id)
          = u₁ ++ (u₂ ++ ((a, vb) :: w)) := by
        rw [heq, hequ]
        simp only [List.map_append, List.map_cons]
        rw [hmapu₁, hmapu₂, hmapw, hRLb, List.append_assoc]
      have hfinal : List.Chain' (fun p q : ℕ × F => p.1 < q.1)
          (u₁ ++ ((a, vb) :: (u₂ ++ w))) := by
        refine chain_append_of_lt u₁ _ hchu₁ ?_ ?_
        · refine chain_cons_of_lt_all _ _ ?_ ?_
          · intro y hy
            rcases List.mem_append.mp hy with h' | h'
            · exact hu₂ y h'
            · exact hwa y h'
          · refine chain_append_of_lt u₂ w hchu₂ hchw ?_
            intro y hy z hz
            have := hu₂b y hy
            have := hw z hz
            omega
        · intro y hy z hz
          have hya := hu₁ y hy
          rcases List.mem_cons.mp hz with rfl | hz'
          · exact hya
          · rcases List.mem_append.mp hz' with h' | h'
            · have := hu₂ z h'
              omega
            · have := hwa z h'
              omega
      show List.Chain' (fun p q : ℕ × F => p.1 < q.1)
        (CsMatrix.revPass (CsMatrix.fwdPass
          (l.map (Prod.map (CsMatrix.relabel a b) id))))
      rw [hmap]
      cases u₂ with
      | nil =>
        have hfwd : CsMatrix.fwdPass (u₁ ++ ([] ++ ((a, vb) :: w)))
            = u₁ ++ ((a, vb) :: w) := by
          rw [List.nil_append]
          rw [CsMatrix.fwdPass_carry u₁ (a, vb) w hchu₁ (fun y hy => hu₁ y hy)]
          congr 1
          exact CsMatrix.fwdGo_sorted w (a, vb)
            (chain_cons_of_lt_all _ _ hwa hchw)
        have hfinal' : List.Chain' (fun p q : ℕ × F => p.1 < q.1)
            (u₁ ++ ((a, vb) :: w)) := by
          have := hfinal
          simpa using this
        rw [hfwd, CsMatrix.revPass_sorted _ hfinal']
        exact hfinal'
      | cons c u₂' =>
        have hcmem : c ∈ c :: u₂' := List.mem_cons_self _ _
        have hLmem : (c :: u₂').getLastD c ∈ c :: u₂' :=
          list_getLastD_mem_gen _ c (by simp)
        have haL : a < ((c :: u₂').getLastD c).1 := hu₂ _ hLmem
        have hLb : ((c :: u₂').getLastD c).1 < b := hu₂b _ hLmem
        have hLw : ∀ y ∈ w, ((c :: u₂').getLastD c).1 < y.1 := by
          intro y hy
          have := hw y hy
          omega
        have hfwd : CsMatrix.fwdPass (u₁ ++ ((c :: u₂') ++ ((a, vb) :: w)))
            = u₁ ++ ((c :: u₂').dropLast
                ++ ((a, vb) :: ((c :: u₂').getLastD c :: w))) := by
          rw [List.cons_append]
          rw [CsMatrix.fwdPass_carry u₁ c (u₂' ++ ((a, vb) :: w)) hchu₁
            (fun y hy => by have h1 := hu₁ y hy; have h2 := hu₂ c hcmem; omega)]
          congr 1
          rw [CsMatrix.fwdGo_chain u₂' c ((a, vb) :: w) hchu₂]
          congr 1
          simp only [CsMatrix.fwdGo]
          rw [if_pos (show ((a : ℕ), vb).1 < ((c :: u₂').getLastD c).1 from haL)]
          rw [CsMatrix.fwdGo_sorted w _ (chain_cons_of_lt_all _ _ hLw hchw)]
        have hrev : CsMatrix.revPass (u₁ ++ ((c :: u₂').dropLast
              ++ ((a, vb) :: ((c :: u₂').getLastD c :: w))))
            = u₁ ++ ((a, vb) :: ((c :: u₂').dropLast
              ++ ((c :: u₂').getLastD c :: w))) := by
          rw [← List.append_assoc]
          exact CsMatrix.revPass_insert u₁ ((c :: u₂').dropLast)
            ((c :: u₂').getLastD c :: w) (a, vb) hchu₁ hu₁
            (fun y hy => hu₂ y (List.dropLast_subset _ hy))
            (chain_cons_of_lt_all _ _ hLw hchw)
            (fun y hy => by
              rcases List.mem_cons.mp hy with rfl | hy'
              · exact haL
              · exact hwa y hy')
        have hre : (c :: u₂').dropLast ++ ((c :: u₂').getLastD c :: w)
            = (c :: u₂') ++ w := by
          rw [show ((c :: u₂').getLastD c :: w)
              = [(c :: u₂').getLastD c] ++ w from rfl,
            ← List.append_assoc,
            list_dropLast_append_getLastD_gen (c :: u₂') c (by simp)]
        rw [hfwd, hrev, hre]
        exact hfinal
    · -- neither label occurs: the lane is untouched
      have hid : l.map (Prod.map (CsMatrix.relabel a b) id) = l :=
        map_relabel_id a b l (fun y hy =>
          ⟨fun hc => ha (List.mem_map.mpr ⟨y, hy, hc⟩),
           fun hc => hb (List.mem_map.mpr ⟨y, hy, hc⟩)⟩)
      rw [hid, CsMatrix.passSegment_sorted_id l hl]
      exact hl

/-- Per-lane core of `swap_minor`, arbitrary labels: re-sorting the
relabelled form of a sorted lane yields a sorted lane. -/
theorem passSegment_relabel_sorted (a b : ℕ) (l : List (ℕ × F))
    (hl : List.Chain' (fun p q : ℕ × F => p.1 < q.1) l) :
    List.Chain' (fun p q : ℕ × F => p.1 < q.1)
      (CsMatrix.passSegment (l.map (Prod.map (CsMatrix.relabel a b) id))) := by
  rcases Nat.lt_trichotomy a b with h | h | h
  · exact passSegment_relabel_sorted_lt a b h l hl
  · subst h
    have hid : l.map (Prod.map (CsMatrix.relabel a a) id) = l := by
      have hpt : ∀ y ∈ l, Prod.map (CsMatrix.relabel a a) id y = id y := by
        intro y _
        show (CsMatrix.relabel a a y.1, y.2) = y
        rw [show CsMatrix.relabel a a y.1 = y.1 from by
          unfold CsMatrix.relabel; split_ifs <;> omega]
      rw [List.map_congr_left hpt, List.map_id]
    rw [hid, CsMatrix.passSegment_sorted_id l hl]
    exact hl
  · have hcomm : l.map (Prod.map (CsMatrix.relabel a b) id)
        = l.map (Prod.map (CsMatrix.relabel b a) id) := by
      apply List.map_congr_left
      intro y _
      show (CsMatrix.relabel a b y.1, y.2) = (CsMatrix.relabel b a y.1, y.2)
      rw [CsMatrix.relabel_comm]
    rw [hcomm]
    exact passSegment_relabel_sorted_lt b a h l hl

/-- Locality of the per-lane loop: with in-range ascending offsets it
never touches the first `c` positions, so two inputs agreeing beyond a
length-`c` prefix produce the same suffix. -/
theorem CsMatrix.resortLanes_prefix_pair :
    ∀ (cs : List ℕ) (c : ℕ) (p q z : List (ℕ × F)),
    p.length = c → q.length = c →
    List.Chain' (· ≤ ·) (c :: cs) →
    (∀ x ∈ cs, x ≤ c + z.length) →
    ∃ w, CsMatrix.resortLanes (c :: cs) (p ++ z) = p ++ w ∧
      CsMatrix.resortLanes (c :: cs) (q ++ z) = q ++ w ∧
      w.length = z.length := by
  intro cs
  induction cs with
  | nil =>
    intro c p q z _ _ _ _
    exact ⟨z, rfl, rfl, rfl⟩
  | cons e cs' ih =>
    intro c p q z hp hq hch hbd
    have hce : c ≤ e := (List.chain'_cons.mp hch).1
    have heb : e ≤ c + z.length := hbd e (List.mem_cons_self _ _)
    have hsp : ∀ r : List (ℕ × F), r.length = c →
        CsMatrix.splice (r ++ z) c e
          = (r ++ CsMatrix.passSegment (z.take (e - c))) ++ z.drop (e - c) := by
      intro r hr
      unfold CsMatrix.splice
      congr 1
      · congr 1
        · rw [← hr, List.take_left]
        · rw [← hr, List.drop_left]
      · rw [show e = r.length + (e - c) from by omega, List.drop_append]
        congr 1
        omega
    have hQlen : (CsMatrix.passSegment (z.take (e - c))).length = e - c := by
      rw [(CsMatrix.passSegment_perm _).length_eq, List.length_take]
      omega
    obtain ⟨w', h1, h2, hl⟩ := ih e (p ++ CsMatrix.passSegment (z.take (e - c)))
      (q ++ CsMatrix.passSegment (z.take (e - c))) (z.drop (e - c))
      (by rw [List.length_append, hp, hQlen]; omega)
      (by rw [List.length_append, hq, hQlen]; omega)
      hch.tail
      (by
        intro x hx
        have := hbd x (List.mem_cons_of_mem _ hx)
        rw [List.length_drop]
        omega)
    refine ⟨CsMatrix.passSegment (z.take (e - c)) ++ w', ?_, ?_, ?_⟩
    · show CsMatrix.resortLanes (e :: cs') (CsMatrix.splice (p ++ z) c e) = _
      rw [hsp p hp, h1, List.append_assoc]
    · show CsMatrix.resortLanes (e :: cs') (CsMatrix.splice (q ++ z) c e) = _
      rw [hsp q hq, h2, List.append_assoc]
    · rw [List.length_append, hQlen, hl, List.length_drop]
      omega

/-- One lane of the double `swap_minor` round trip: re-sorting the lane's
relabelled form and, on the second application, re-sorting the relabelled
form of that sorted result, restores the original lane in place while the
rest of the loop (handled by `hIH`) restores the suffix. -/
theorem CsMatrix.resortLanes_invol_step (a b c e : ℕ) (cs' : List ℕ)
    (l S₁ l₁ : List (ℕ × F))
    (hce : c ≤ e) (hcl : c ≤ l.length) (hel : e ≤ l.length)
    (hS₁def : S₁ = CsMatrix.passSegment
      (((l.drop c).take (e - c)).map (Prod.map (CsMatrix.relabel a b) id)))
    (hl₁def : l₁ = l.take c
      ++ (S₁.map (Prod.map (CsMatrix.relabel a b) id) ++ l.drop e))
    (hsegs : List.Chain' (fun y z : ℕ × F => y.1 < z.1) ((l.drop c).take (e - c)))
    (hch2 : List.Chain' (· ≤ ·) (e :: cs'))
    (hbd : ∀ x ∈ cs', x ≤ l.length)
    (hIH : CsMatrix.resortLanes (e :: cs')
        ((CsMatrix.resortLanes (e :: cs')
          (l₁.map (Prod.map (CsMatrix.relabel a b) id))).map
            (Prod.map (CsMatrix.relabel a b) id)) = l₁) :
    CsMatrix.resortLanes (c :: e :: cs')
      ((CsMatrix.resortLanes (c :: e :: cs')
        (l.map (Prod.map (CsMatrix.relabel a b) id))).map
          (Prod.map (CsMatrix.relabel a b) id)) = l := by
  have hS₁len : S₁.length = e - c := by
    rw [hS₁def, (CsMatrix.passSegment_perm _).length_eq, List.length_map,
      List.length_take, List.length_drop]
    omega
  have hS₁sorted : List.Chain' (fun y z : ℕ × F => y.1 < z.1) S₁ := by
    rw [hS₁def]
    exact passSegment_relabel_sorted a b _ hsegs
  have hPlen : (l.take c ++ S₁.map (Prod.map (CsMatrix.relabel a b) id)).length = e := by
    rw [List.length_append, List.length_map, List.length_take, hS₁len]
    omega
  have hl₁group : l₁ = (l.take c ++ S₁.map (Prod.map (CsMatrix.relabel a b) id))
      ++ l.drop e := by
    rw [hl₁def, List.append_assoc]
  have hl₁take : l₁.take e = l.take c ++ S₁.map (Prod.map (CsMatrix.relabel a b) id) := by
    rw [hl₁group]
    exact List.take_left' hPlen
  have hl₁drop : l₁.drop e = l.drop e := by
    rw [hl₁group]
    exact List.drop_left' hPlen
  have hl₁len : l₁.length = l.length := by
    rw [hl₁group, List.length_append, hPlen, List.length_drop]
    omega
  have hsplice₁ : CsMatrix.splice (l.map (Prod.map (CsMatrix.relabel a b) id)) c e
      = l₁.map (Prod.map (CsMatrix.relabel a b) id) := by
    unfold CsMatrix.splice
    rw [hl₁def, hS₁def]
    simp only [List.map_append, List.map_take, List.map_drop,
      map_relabel_invol, List.append_assoc]
  have hinner : CsMatrix.resortLanes (c :: e :: cs')
      (l.map (Prod.map (CsMatrix.relabel a b) id))
      = CsMatrix.resortLanes (e :: cs')
        (l₁.map (Prod.map (CsMatrix.relabel a b) id)) := by
    show CsMatrix.resortLanes (e :: cs')
      (CsMatrix.splice (l.map (Prod.map (CsMatrix.relabel a b) id)) c e) = _
    rw [hsplice₁]
  have htlen : ((l₁.map (Prod.map (CsMatrix.relabel a b) id)).take e).length = e := by
    rw [List.length_take, List.length_map, hl₁len]
    omega
  have hbnd₂ : ∀ x ∈ cs',
      x ≤ e + ((l₁.map (Prod.map (CsMatrix.relabel a b) id)).drop e).length := by
    intro x hx
    have := hbd x hx
    rw [List.length_drop, List.length_map, hl₁len]
    omega
  obtain ⟨w, hw₁, _, hwlen⟩ := CsMatrix.resortLanes_prefix_pair cs' e
    ((l₁.map (Prod.map (CsMatrix.relabel a b) id)).take e)
    ((l₁.map (Prod.map (CsMatrix.relabel a b) id)).take e)
    ((l₁.map (Prod.map (CsMatrix.relabel a b) id)).drop e)
    htlen htlen hch2 hbnd₂
  rw [List.take_append_drop] at hw₁
  have harg : ((CsMatrix.resortLanes (e :: cs')
        (l₁.map (Prod.map (CsMatrix.relabel a b) id))).map
          (Prod.map (CsMatrix.relabel a b) id))
      = (l.take c ++ S₁.map (Prod.map (CsMatrix.relabel a b) id))
        ++ w.map (Prod.map (CsMatrix.relabel a b) id) := by
    rw [hw₁, List.map_append]
    congr 1
    rw [← List.map_take, map_relabel_invol]
    exact hl₁take
  have hkey : CsMatrix.passSegment
      (S₁.map (Prod.map (CsMatrix.relabel a b) id)) = (l.drop c).take (e - c) := by
    apply sorted_key_unique
    · refine (CsMatrix.passSegment_perm _).trans ?_
      have hp := ((CsMatrix.passSegment_perm
        (((l.drop c).take (e - c)).map
          (Prod.map (CsMatrix.relabel a b) id))).map
            (Prod.map (CsMatrix.relabel a b) id))
      rw [map_relabel_invol] at hp
      rw [hS₁def]
      exact hp
    · exact passSegment_relabel_sorted a b S₁ hS₁sorted
    · exact hsegs
  have hsplice₂ : CsMatrix.splice
      ((l.take c ++ S₁.map (Prod.map (CsMatrix.relabel a b) id))
        ++ w.map (Prod.map (CsMatrix.relabel a b) id)) c e
      = (l.take c ++ (l.drop c).take (e - c))
        ++ w.map (Prod.map (CsMatrix.relabel a b) id) := by
    have htakelen : (l.take c).length = c := by
      rw [List.length_take]
      omega
    unfold CsMatrix.splice
    congr 1
    · congr 1
      · rw [List.take_append_of_le_length (by omega : c ≤ (l.take c
            ++ S₁.map (Prod.map (CsMatrix.relabel a b) id)).length),
          List.take_append_of_le_length (by omega : c ≤ (l.take c).length),
          List.take_take, Nat.min_self]
      · rw [List.drop_append_of_le_length (by omega : c ≤ (l.take c
            ++ S₁.map (Prod.map (CsMatrix.relabel a b) id)).length),
          List.drop_left' htakelen,
          List.take_left' (by rw [List.length_map, hS₁len])]
        exact hkey
    · exact List.drop_left' hPlen
  have hP'len : (l.take c ++ (l.drop c).take (e - c)).length = e := by
    rw [List.length_append, List.length_take, List.length_take, List.length_drop]
    omega
  obtain ⟨w₂, hA, hB, _⟩ := CsMatrix.resortLanes_prefix_pair cs' e
    (l.take c ++ S₁.map (Prod.map (CsMatrix.relabel a b) id))
    (l.take c ++ (l.drop c).take (e - c))
    (w.map (Prod.map (CsMatrix.relabel a b) id))
    hPlen hP'len hch2
    (by
      intro x hx
      have := hbd x hx
      rw [List.length_map, hwlen, List.length_drop, List.length_map, hl₁len]
      omega)
  rw [harg, hA] at hIH
  rw [hinner, harg]
  have hw₂ : w₂ = l.drop e :=
    List.append_cancel_left (hIH.trans hl₁group)
  show CsMatrix.resortLanes (e :: cs')
    (CsMatrix.splice ((l.take c ++ S₁.map (Prod.map (CsMatrix.relabel a b) id))
      ++ w.map (Prod.map (CsMatrix.relabel a b) id)) c e) = l
  rw [hsplice₂, hB, hw₂, List.append_assoc,
    show l.drop e = (l.drop c).drop (e - c) from by
      rw [List.drop_drop]
      congr 1
      omega,
    List.take_append_drop, List.take_append_drop]

/-- Round trip of the whole per-lane loop of `swap_minor`: under the CSC
invariants (ascending in-range offsets, strictly sorted lane segments),
running `resortLanes` on the relabelled entries and then again on the
relabelled result restores the original entry list. -/
theorem CsMatrix.resortLanes_relabel_invol (a b : ℕ) :
    ∀ (cs : List ℕ) (c : ℕ) (l : List (ℕ × F)),
    List.Chain' (· ≤ ·) (c :: cs) →
    (∀ x ∈ c :: cs, x ≤ l.length) →
    (∀ p ∈ (c :: cs).zip cs, List.Chain' (fun y z : ℕ × F => y.1 < z.1)
        ((l.drop p.1).take (p.2 - p.1))) →
    CsMatrix.resortLanes (c :: cs)
      ((CsMatrix.resortLanes (c :: cs)
        (l.map (Prod.map (CsMatrix.relabel a b) id))).map
          (Prod.map (CsMatrix.relabel a b) id)) = l := by
  intro cs
  induction cs with
  | nil =>
    intro c l _ _ _
    exact map_relabel_invol a b l
  | cons e cs' ih =>
    intro c l hch hbd hseg
    have hce : c ≤ e := (List.chain'_cons.mp hch).1
    have hcl : c ≤ l.length := hbd c (List.mem_cons_self _ _)
    have hel : e ≤ l.length :=
      hbd e (List.mem_cons_of_mem _ (List.mem_cons_self _ _))
    have hsegs : List.Chain' (fun y z : ℕ × F => y.1 < z.1)
        ((l.drop c).take (e - c)) :=
      hseg (c, e) (show (c, e) ∈ (c, e) :: (e :: cs').zip cs' from
        List.mem_cons_self _ _)
    have hS₁len : (CsMatrix.passSegment (((l.drop c).take (e - c)).map
        (Prod.map (CsMatrix.relabel a b) id))).length = e - c := by
      rw [(CsMatrix.passSegment_perm _).length_eq, List.length_map,
        List.length_take, List.length_drop]
      omega
    have hl₁len : (l.take c ++ ((CsMatrix.passSegment (((l.drop c).take
          (e - c)).map (Prod.map (CsMatrix.relabel a b) id))).map
            (Prod.map (CsMatrix.relabel a b) id) ++ l.drop e)).length
        = l.length := by
      simp only [List.length_append, List.length_map, List.length_take,
        List.length_drop, hS₁len]
      omega
    have hl₁drop : (l.take c ++ ((CsMatrix.passSegment (((l.drop c).take
          (e - c)).map (Prod.map (CsMatrix.relabel a b) id))).map
            (Prod.map (CsMatrix.relabel a b) id) ++ l.drop e)).drop e
        = l.drop e := by
      rw [← List.append_assoc]
      exact List.drop_left' (by
        simp only [List.length_append, List.length_map, List.length_take,
          hS₁len]
        omega)
    refine CsMatrix.resortLanes_invol_step a b c e cs' l _ _ hce hcl hel
      rfl rfl hsegs hch.tail
      (fun x hx => hbd x (List.mem_cons_of_mem _ (List.mem_cons_of_mem _ hx)))
      (ih e _ hch.tail ?_ ?_)
    · intro x hx
      rw [hl₁len]
      exact hbd x (List.mem_cons_of_mem _ hx)
    · intro p hp
      obtain ⟨p₁, p₂⟩ := p
      have hmem := List.of_mem_zip hp
      have hpw : List.Pairwise (· ≤ ·) (e :: cs') :=
        List.chain'_iff_pairwise.mp hch.tail
      have hep₁ : e ≤ p₁ := by
        rcases List.mem_cons.mp hmem.1 with rfl | h'
        · exact Nat.le_refl _
        · exact (List.pairwise_cons.mp hpw).1 p₁ h'
      have h1 : (l.take c ++ ((CsMatrix.passSegment (((l.drop c).take
            (e - c)).map (Prod.map (CsMatrix.relabel a b) id))).map
              (Prod.map (CsMatrix.relabel a b) id) ++ l.drop e)).drop p₁
          = l.drop p₁ := by
        calc (l.take c ++ ((CsMatrix.passSegment (((l.drop c).take
              (e - c)).map (Prod.map (CsMatrix.relabel a b) id))).map
                (Prod.map (CsMatrix.relabel a b) id) ++ l.drop e)).drop p₁
            = ((l.take c ++ ((CsMatrix.passSegment (((l.drop c).take
              (e - c)).map (Prod.map (CsMatrix.relabel a b) id))).map
                (Prod.map (CsMatrix.relabel a b) id) ++ l.drop e)).drop e).drop
              (p₁ - e) := by
              rw [List.drop_drop]
              congr 1
              omega
          _ = (l.drop e).drop (p₁ - e) := by rw [hl₁drop]
          _ = l.drop p₁ := by
              rw [List.drop_drop]
              congr 1
              omega
      rw [h1]
      exact hseg (p₁, p₂) (List.mem_cons_of_mem _ hp)

/-- Zipping the relabelled keys of an unzipped pair list re-forms the
relabelled pair list. -/
theorem zip_map_relabel (a b : ℕ) (s : List (ℕ × F)) :
    ((s.map Prod.fst).map (CsMatrix.relabel a b)).zip (s.map Prod.snd)
      = s.map (Prod.map (CsMatrix.relabel a b) id) := by
  rw [List.map_map, List.zip_map']
  exact List.map_congr_left (fun p _ => rfl)

/-- C9: for every `CsMatrix` satisfying the CSC invariants — parallel
index/value arrays, nonempty ascending offsets bounded by the number of
stored entries, and strictly ascending (hence duplicate-free) minor
indices within each lane — and any two minor indices `a, b < minor_dim`,
applying `swap_minor(a, b)` twice returns the matrix, both the
minor-index array and the parallel value array, to exactly its original
state. -/
theorem c9_swap_minor_involution (m : CsMatrix) (a b : ℕ)
    (hlen : m.pattern.minorIndices.length = m.values.length)
    (hne : m.pattern.majorOffsets ≠ [])
    (hch : List.Chain' (· ≤ ·) m.pattern.majorOffsets)
    (hbd : ∀ x ∈ m.pattern.majorOffsets, x ≤ m.pattern.minorIndices.length)
    (hseg : ∀ p ∈ m.pattern.majorOffsets.zip m.pattern.majorOffsets.tail,
        List.Chain' (· < ·) ((m.pattern.minorIndices.drop p.1).take (p.2 - p.1)))
    (ha : a < m.pattern.minorDim) (hb : b < m.pattern.minorDim) :
    (m.swapMinor a b).swapMinor a b = m := by
  obtain ⟨⟨offs, minors, md⟩, vals⟩ := m
  dsimp only at hlen hne hch hbd hseg ha hb
  cases offs with
  | nil => exact absurd rfl hne
  | cons c cs =>
    have hbd' : ∀ x ∈ c :: cs, x ≤ (minors.zip vals).length := by
      intro x hx
      rw [List.length_zip]
      have := hbd x hx
      omega
    have hseg' : ∀ p ∈ (c :: cs).zip cs,
        List.Chain' (fun y z : ℕ × F => y.1 < z.1)
          (((minors.zip vals).drop p.1).take (p.2 - p.1)) := by
      intro p hp
      have hs := hseg p hp
      have hfst : ((((minors.zip vals)).drop p.1).take (p.2 - p.1)).map Prod.fst
          = (minors.drop p.1).take (p.2 - p.1) := by
        rw [List.map_take, List.map_drop,
          List.map_fst_zip _ _ (Nat.le_of_eq hlen)]
      rw [← hfst] at hs
      exact (List.chain'_map _).mp hs
    have hinv := CsMatrix.resortLanes_relabel_invol a b cs c (minors.zip vals)
      hch hbd' hseg'
    show CsMatrix.swapMinor
      ⟨⟨c :: cs, (CsMatrix.resortLanes (c :: cs)
        ((minors.map (CsMatrix.relabel a b)).zip vals)).map Prod.fst, md⟩,
       (CsMatrix.resortLanes (c :: cs)
        ((minors.map (CsMatrix.relabel a b)).zip vals)).map Prod.snd⟩ a b
      = ⟨⟨c :: cs, minors, md⟩, vals⟩
    show (⟨⟨c :: cs, (CsMatrix.resortLanes (c :: cs)
        ((((CsMatrix.resortLanes (c :: cs)
          ((minors.map (CsMatrix.relabel a b)).zip vals)).map Prod.fst).map
            (CsMatrix.relabel a b)).zip
          ((CsMatrix.resortLanes (c :: cs)
            ((minors.map (CsMatrix.relabel a b)).zip vals)).map Prod.snd))).map
              Prod.fst, md⟩,
       (CsMatrix.resortLanes (c :: cs)
        ((((CsMatrix.resortLanes (c :: cs)
          ((minors.map (CsMatrix.relabel a b)).zip vals)).map Prod.fst).map
            (CsMatrix.relabel a b)).zip
          ((CsMatrix.resortLanes (c :: cs)
            ((minors.map (CsMatrix.relabel a b)).zip vals)).map Prod.snd))).map
              Prod.snd⟩ : CsMatrix)
      = ⟨⟨c :: cs, minors, md⟩, vals⟩
    rw [zip_map_relabel, List.zip_map_left, hinv,
      List.map_fst_zip _ _ (Nat.le_of_eq hlen),
      List.map_snd_zip _ _ (Nat.le_of_eq hlen.symm)]

/-- Witness for C9: the 2×2 CSC matrix with entries (0,0)=1 and (1,1)=5
satisfies the CSC invariants, and swapping minors 0 and 1 twice restores
it exactly. -/
theorem c9_swap_minor_involution_witness :
    (([0, 1] : List ℕ).length = ([1, 5] : List F).length) ∧
    (([0, 1, 2] : List ℕ) ≠ []) ∧
    List.Chain' (· ≤ ·) ([0, 1, 2] : List ℕ) ∧
    (∀ x ∈ ([0, 1, 2] : List ℕ), x ≤ ([0, 1] : List ℕ).length) ∧
    (∀ p ∈ ([0, 1, 2] : List ℕ).zip ([0, 1, 2] : List ℕ).tail,
        List.Chain' (· < ·) ((([0, 1] : List ℕ).drop p.1).take (p.2 - p.1))) ∧
    (0 < 2) ∧ (1 < 2) ∧
    (((⟨⟨[0, 1, 2], [0, 1], 2⟩, [1, 5]⟩ : CsMatrix).swapMinor 0 1).swapMinor 0 1
      = ⟨⟨[0, 1, 2], [0, 1], 2⟩, [1, 5]⟩) := by
  have hch : List.Chain' (· ≤ ·) ([0, 1, 2] : List ℕ) := by
    simp [List.chain'_cons]
  have hseg : ∀ p ∈ ([0, 1, 2] : List ℕ).zip ([0, 1, 2] : List ℕ).tail,
      List.Chain' (· < ·) ((([0, 1] : List ℕ).drop p.1).take (p.2 - p.1)) := by
    intro p hp
    simp at hp
    rcases hp with rfl | rfl <;> simp
  exact ⟨by decide, by decide, hch, by decide, hseg, by decide, by decide,
    c9_swap_minor_involution ⟨⟨[0, 1, 2], [0, 1], 2⟩, [1, 5]⟩ 0 1 (by decide)
      (by decide) hch (by decide) hseg (by decide) (by decide)⟩
